import Mathlib

/-!
Verification of the vmselect netstorage query-side data plane: a shallow
embedding, in Lean 4, of the series search, block unpack, k-way merge and
worker pipeline, together with theorems checking the natural-language
specification against the code.

Modelling conventions:
  * Go int64 timestamps are Lean `Int`; lengths and indices are `Nat`.
  * Go float64 sample values are opaque to this pipeline: they are only
    produced by the out-of-scope decimal codec and carried along. They are
    modelled by the pair (mantissa, scale) the codec converts, which the
    code never computes with.
  * The storage engine (`storage.Block`, `storage.BlockRef`,
    `MustReadBlock`, `UnmarshalData`) is an out-of-scope boundary: a
    `BlockRef` is modelled as the data the engine would materialize from
    it, with a flag telling whether `UnmarshalData` succeeds.
  * Goroutines and channels are sequentialized: a worker pool that is fed
    work units and joined on per-unit channels becomes a fold over the
    unit outcomes in enqueue order, which is exactly the order the source
    awaits them in.
  * Object pools are modelled by counting get and put calls; a pooled
    `getSortBlock` always hands out a reset (empty) block, which is the
    pool invariant the source maintains.
-/

/-- storage.TimeRange: inclusive [MinTimestamp, MaxTimestamp]. -/
structure TimeRange where
  MinTimestamp : Int
  MaxTimestamp : Int
deriving Repr, DecidableEq

/-- Modelled from the spec: the float64 value the out-of-scope decimal
codec produces, v * 10^e for a decimal integer v with power-of-ten scale
e. The merge and worker pipeline never computes with these values, so the
model keeps the pair itself. -/
structure Float64V where
  mantissa : Int
  exponent : Int
deriving Repr, DecidableEq

/-- Modelled from the spec: decimal_to_float of the out-of-scope codec. -/
def decimalToFloat (v : Int) (e : Int) : Float64V :=
  ⟨v, e⟩

/-- The data the storage engine materializes for one block: what
Timestamps(), Values(), Scale() and RowsCount() return after a successful
UnmarshalData, plus whether UnmarshalData succeeds on this block
(an out-of-scope boundary, modelled by a flag). -/
structure BlockData where
  timestamps : List Int
  values : List Int
  scale : Int
  rowsCount : Int
  unmarshalOk : Bool
deriving Repr, DecidableEq

/-- storage.BlockRef: an opaque handle; MustReadBlock materializes `blk`
from it (header always; timestamps and values only when fetchData). -/
structure BlockRef where
  blk : BlockData
deriving Repr, DecidableEq

/-- sortBlock: decoded, clipped view of one block (the internal
storage.Block buffer `b` is not carried: it is temporary storage). -/
structure sortBlock where
  Timestamps : List Int
  Values : List Float64V
  NextIdx : Nat
deriving Repr, DecidableEq

/-- getSortBlock hands out a reset block: the pool invariant. -/
def emptySortBlock : sortBlock :=
  { Timestamps := [], Values := [], NextIdx := 0 }

/-- The loop `for i < len(timestamps) && timestamps[i] < tr.MinTimestamp { i++ }`,
written with the structural countdown `ts.length - i` so that it reduces in
the kernel; the countdown is exactly the number of steps the loop can take. -/
def skipBelowIdxGo (ts : List Int) (minT : Int) : Nat → Nat → Nat
  | 0, i => i
  | fuel + 1, i =>
    if i < ts.length ∧ ts.getD i 0 < minT then skipBelowIdxGo ts minT fuel (i + 1) else i

def skipBelowIdx (ts : List Int) (minT : Int) (i : Nat) : Nat :=
  skipBelowIdxGo ts minT (ts.length - i) i

/-- The loop `for j > i && timestamps[j-1] > tr.MaxTimestamp { j-- }`:
j decreases by one per step, which is already structural. -/
def shrinkAboveIdx (ts : List Int) (maxT : Int) (i : Nat) : Nat → Nat
  | 0 => 0
  | j + 1 =>
    if i < j + 1 ∧ maxT < ts.getD j 0 then shrinkAboveIdx ts maxT i j else j + 1

/-- sortBlock.unpackFrom: materialize the block referenced by `br`, clip
its rows to `tr`, convert values to float, append into `sb`. Returns the
updated block together with the amount added to the skipped-rows counter
(`metricRowsSkipped.Add(skippedRows)` in the source). -/
def sortBlock.unpackFrom (sb : sortBlock) (br : BlockRef) (tr : TimeRange)
    (fetchData : Bool) : Except String (sortBlock × Int) :=
  -- br.MustReadBlock(&sb.b, fetchData); if fetchData { UnmarshalData }
  if fetchData ∧ br.blk.unmarshalOk = false then
    .error ("cannot unmarshal block")
  else
    -- without fetchData only the header is materialized: Timestamps() is empty
    let timestamps := if fetchData then br.blk.timestamps else []
    let vals := if fetchData then br.blk.values else []
    let i := skipBelowIdx timestamps tr.MinTimestamp 0
    let j := shrinkAboveIdx timestamps tr.MaxTimestamp i timestamps.length
    let skippedRows : Int := br.blk.rowsCount - ((j : Int) - (i : Int))
    if i = j then
      .ok (sb, skippedRows)
    else
      .ok ({ sb with
              Timestamps := sb.Timestamps ++ (timestamps.take j).drop i,
              Values := sb.Values ++
                ((vals.take j).drop i).map (fun v => decimalToFloat v br.blk.scale) },
            skippedRows)

/-- The inclusive range test a clipped sample satisfies. -/
def inTimeRange (tr : TimeRange) (t : Int) : Bool :=
  decide (tr.MinTimestamp ≤ t ∧ t ≤ tr.MaxTimestamp)

/-! ### Properties of the two clipping scans -/

theorem skipBelowIdxGo_spec (ts : List Int) (minT : Int) :
    ∀ (fuel i : Nat), ts.length - i ≤ fuel →
    i ≤ skipBelowIdxGo ts minT fuel i ∧
    (i ≤ ts.length → skipBelowIdxGo ts minT fuel i ≤ ts.length) ∧
    (∀ k, i ≤ k → k < skipBelowIdxGo ts minT fuel i → ts.getD k 0 < minT) ∧
    (skipBelowIdxGo ts minT fuel i < ts.length →
      ¬ ts.getD (skipBelowIdxGo ts minT fuel i) 0 < minT) := by
  intro fuel
  induction fuel with
  | zero =>
    intro i hfuel
    refine ⟨Nat.le_refl i, fun h => ?_, ?_, ?_⟩
    · simpa using h
    · intro k hik hk
      exact absurd hik (Nat.not_le_of_lt (by simpa [skipBelowIdxGo] using hk))
    · intro hlt
      exact absurd hlt (by simp [skipBelowIdxGo]; omega)
  | succ fuel ih =>
    intro i hfuel
    by_cases hc : i < ts.length ∧ ts.getD i 0 < minT
    · have hstep : skipBelowIdxGo ts minT (fuel + 1) i = skipBelowIdxGo ts minT fuel (i + 1) := by
        simp only [skipBelowIdxGo, if_pos hc]
      obtain ⟨h1, h2, h3, h4⟩ := ih (i + 1) (by omega)
      rw [hstep]
      refine ⟨Nat.le_trans (Nat.le_succ i) h1, fun _ => h2 hc.1, ?_, h4⟩
      intro k hik hk
      rcases Nat.eq_or_lt_of_le hik with h | h
      · exact h ▸ hc.2
      · exact h3 k h hk
    · have hstep : skipBelowIdxGo ts minT (fuel + 1) i = i := by
        simp only [skipBelowIdxGo, if_neg hc]
      rw [hstep]
      refine ⟨Nat.le_refl i, fun h => h,
        fun k hik hk => absurd hik (Nat.not_le_of_lt hk), ?_⟩
      intro hlt hts
      exact hc ⟨hlt, hts⟩

theorem skipBelowIdx_spec (ts : List Int) (minT : Int) (i : Nat) :
    i ≤ skipBelowIdx ts minT i ∧
    (i ≤ ts.length → skipBelowIdx ts minT i ≤ ts.length) ∧
    (∀ k, i ≤ k → k < skipBelowIdx ts minT i → ts.getD k 0 < minT) ∧
    (skipBelowIdx ts minT i < ts.length → ¬ ts.getD (skipBelowIdx ts minT i) 0 < minT) :=
  skipBelowIdxGo_spec ts minT (ts.length - i) i (Nat.le_refl _)

theorem shrinkAboveIdx_spec (ts : List Int) (maxT : Int) (i : Nat) (j : Nat) :
    shrinkAboveIdx ts maxT i j ≤ j ∧
    (i ≤ j → i ≤ shrinkAboveIdx ts maxT i j) ∧
    (∀ k, shrinkAboveIdx ts maxT i j ≤ k → k < j → maxT < ts.getD k 0) ∧
    (i < shrinkAboveIdx ts maxT i j →
      ¬ maxT < ts.getD (shrinkAboveIdx ts maxT i j - 1) 0) := by
  induction j with
  | zero =>
    refine ⟨Nat.le_refl 0, fun h => h, ?_, ?_⟩
    · intro k hk hk0
      exact absurd hk0 (Nat.not_lt_zero k)
    · intro h
      exact absurd h (by simp [shrinkAboveIdx])
  | succ j ih =>
    by_cases hc : i < j + 1 ∧ maxT < ts.getD j 0
    · have hstep : shrinkAboveIdx ts maxT i (j + 1) = shrinkAboveIdx ts maxT i j := by
        simp only [shrinkAboveIdx, if_pos hc]
      obtain ⟨h1, h2, h3, h4⟩ := ih
      rw [hstep]
      refine ⟨Nat.le_trans h1 (Nat.le_succ j), fun _ => h2 (by omega), ?_, h4⟩
      intro k hk hkj
      rcases Nat.lt_or_ge k j with h | h
      · exact h3 k hk h
      · have hkeq : k = j := by omega
        exact hkeq ▸ hc.2
    · have hstep : shrinkAboveIdx ts maxT i (j + 1) = j + 1 := by
        simp only [shrinkAboveIdx, if_neg hc]
      rw [hstep]
      refine ⟨Nat.le_refl _, fun h => h,
        fun k hk hkj => absurd hk (Nat.not_le_of_lt hkj), ?_⟩
      intro hij hts
      exact hc ⟨hij, by simpa using hts⟩

/-- On a sorted list, getD is monotone inside the bounds. -/
theorem sorted_getD_mono {ts : List Int} (hs : ts.Sorted (· ≤ ·)) {a b : Nat}
    (hab : a ≤ b) (hb : b < ts.length) : ts.getD a 0 ≤ ts.getD b 0 := by
  have ha : a < ts.length := Nat.lt_of_le_of_lt hab hb
  have := hs.rel_get_of_le (a := ⟨a, ha⟩) (b := ⟨b, hb⟩) hab
  simpa [List.getD_eq_getElem?_getD, List.getElem?_eq_getElem, ha, hb, List.get_eq_getElem]
    using this

/-- A contiguous slice [i, j) whose inside satisfies p and whose outside
refutes p is exactly the filter by p. -/
theorem filter_eq_slice_of_bounds {α : Type} (l : List α) (p : α → Bool) (i j : Nat)
    (hij : i ≤ j) (hjl : j ≤ l.length)
    (hlow : ∀ (k : Nat) (h : k < l.length), k < i → p (l.get ⟨k, h⟩) = false)
    (hmid : ∀ (k : Nat) (h : k < l.length), i ≤ k → k < j → p (l.get ⟨k, h⟩) = true)
    (hhigh : ∀ (k : Nat) (h : k < l.length), j ≤ k → p (l.get ⟨k, h⟩) = false) :
    l.filter p = (l.take j).drop i := by
  have hslice : (l.take j).drop i = (l.drop i).take (j - i) := by
    rw [List.drop_take]
  have hdecomp : l = l.take i ++ ((l.take j).drop i ++ l.drop j) := by
    rw [hslice]
    have h2 : (l.drop i).take (j - i) ++ (l.drop i).drop (j - i) = l.drop i :=
      List.take_append_drop _ _
    have h3 : (l.drop i).drop (j - i) = l.drop j := by
      rw [List.drop_drop, Nat.add_sub_cancel' hij]
    rw [← h3, h2, List.take_append_drop]
  have hfilter1 : (l.take i).filter p = [] := by
    rw [List.filter_eq_nil_iff]
    intro a ha
    obtain ⟨n, hn, hna⟩ := List.mem_iff_getElem.mp ha
    have hni : n < i := by
      have := hn
      simp only [List.length_take, Nat.lt_min] at this
      exact this.1
    have hnl : n < l.length := Nat.lt_of_lt_of_le hni (Nat.le_trans hij hjl)
    have : (l.take i)[n] = l.get ⟨n, hnl⟩ := by
      simp [List.get_eq_getElem]
    rw [this] at hna
    rw [← hna]
    have := hlow n hnl hni
    simpa [List.get_eq_getElem] using this
  have hfilter2 : ((l.take j).drop i).filter p = (l.take j).drop i := by
    rw [List.filter_eq_self]
    intro a ha
    obtain ⟨n, hn, hna⟩ := List.mem_iff_getElem.mp ha
    have hlen : ((l.take j).drop i).length = j - i := by
      simp [List.length_take, List.length_drop, Nat.min_eq_left hjl]
    have hnj : i + n < j := by
      rw [hlen] at hn
      omega
    have hnl : i + n < l.length := Nat.lt_of_lt_of_le hnj hjl
    have : ((l.take j).drop i)[n] = l.get ⟨i + n, hnl⟩ := by
      simp [List.get_eq_getElem]
    rw [this] at hna
    rw [← hna]
    exact hmid (i + n) hnl (Nat.le_add_right i n) hnj
  have hfilter3 : (l.drop j).filter p = [] := by
    rw [List.filter_eq_nil_iff]
    intro a ha
    obtain ⟨n, hn, hna⟩ := List.mem_iff_getElem.mp ha
    have hnl : j + n < l.length := by
      have := hn
      simp only [List.length_drop] at this
      omega
    have : (l.drop j)[n] = l.get ⟨j + n, hnl⟩ := by
      simp [List.get_eq_getElem]
    rw [this] at hna
    rw [← hna]
    have := hhigh (j + n) hnl (Nat.le_add_right j n)
    simpa [List.get_eq_getElem] using this
  calc l.filter p
      = (l.take i ++ ((l.take j).drop i ++ l.drop j)).filter p := by rw [← hdecomp]
    _ = (l.take j).drop i := by
        rw [List.filter_append, List.filter_append, hfilter1, hfilter2, hfilter3]
        simp

theorem getD_eq_get_int {ts : List Int} {k : Nat} (h : k < ts.length) :
    ts.getD k 0 = ts.get ⟨k, h⟩ := by
  simp [List.getD_eq_getElem?_getD, List.getElem?_eq_getElem, h, List.get_eq_getElem]

/-- The two scans bracket exactly the in-range positions of a sorted
timestamp list: positions below the scan result i are below the range,
positions in [i, j) are inside it, positions at or above j are above it. -/
theorem clipped_bounds (ts : List Int) (tr : TimeRange)
    (hs : ts.Sorted (· ≤ ·)) :
    skipBelowIdx ts tr.MinTimestamp 0 ≤
      shrinkAboveIdx ts tr.MaxTimestamp (skipBelowIdx ts tr.MinTimestamp 0) ts.length ∧
    shrinkAboveIdx ts tr.MaxTimestamp (skipBelowIdx ts tr.MinTimestamp 0) ts.length ≤
      ts.length ∧
    (∀ (k : Nat) (h : k < ts.length), k < skipBelowIdx ts tr.MinTimestamp 0 →
      inTimeRange tr (ts.get ⟨k, h⟩) = false) ∧
    (∀ (k : Nat) (h : k < ts.length), skipBelowIdx ts tr.MinTimestamp 0 ≤ k →
      k < shrinkAboveIdx ts tr.MaxTimestamp (skipBelowIdx ts tr.MinTimestamp 0) ts.length →
      inTimeRange tr (ts.get ⟨k, h⟩) = true) ∧
    (∀ (k : Nat) (h : k < ts.length),
      shrinkAboveIdx ts tr.MaxTimestamp (skipBelowIdx ts tr.MinTimestamp 0) ts.length ≤ k →
      inTimeRange tr (ts.get ⟨k, h⟩) = false) := by
  obtain ⟨a1, a2, a3, a4⟩ := skipBelowIdx_spec ts tr.MinTimestamp 0
  obtain ⟨b1, b2, b3, b4⟩ := shrinkAboveIdx_spec ts tr.MaxTimestamp
    (skipBelowIdx ts tr.MinTimestamp 0) ts.length
  refine ⟨b2 (a2 (Nat.zero_le _)), b1, ?_, ?_, ?_⟩
  · intro k h hk
    have hlt := a3 k (Nat.zero_le k) hk
    rw [getD_eq_get_int h] at hlt
    simp only [inTimeRange, decide_eq_false_iff_not]
    intro hcon
    omega
  · intro k h hik hkj
    have hi0 : skipBelowIdx ts tr.MinTimestamp 0 < ts.length := Nat.lt_of_le_of_lt hik h
    have hmin : ¬ ts.getD (skipBelowIdx ts tr.MinTimestamp 0) 0 < tr.MinTimestamp := a4 hi0
    rw [getD_eq_get_int hi0] at hmin
    have hmono1 : ts.get ⟨skipBelowIdx ts tr.MinTimestamp 0, hi0⟩ ≤ ts.get ⟨k, h⟩ := by
      have := sorted_getD_mono hs hik h
      rw [getD_eq_get_int hi0, getD_eq_get_int h] at this
      exact this
    have hij : skipBelowIdx ts tr.MinTimestamp 0 <
        shrinkAboveIdx ts tr.MaxTimestamp (skipBelowIdx ts tr.MinTimestamp 0) ts.length :=
      Nat.lt_of_le_of_lt hik hkj
    have hmax : ¬ tr.MaxTimestamp < ts.getD
        (shrinkAboveIdx ts tr.MaxTimestamp (skipBelowIdx ts tr.MinTimestamp 0) ts.length - 1)
        0 := b4 hij
    have hj1 : shrinkAboveIdx ts tr.MaxTimestamp (skipBelowIdx ts tr.MinTimestamp 0)
        ts.length - 1 < ts.length := by omega
    rw [getD_eq_get_int hj1] at hmax
    have hmono2 : ts.get ⟨k, h⟩ ≤ ts.get ⟨shrinkAboveIdx ts tr.MaxTimestamp
        (skipBelowIdx ts tr.MinTimestamp 0) ts.length - 1, hj1⟩ := by
      have hk1 : k ≤ shrinkAboveIdx ts tr.MaxTimestamp
          (skipBelowIdx ts tr.MinTimestamp 0) ts.length - 1 := by omega
      have := sorted_getD_mono hs hk1 hj1
      rw [getD_eq_get_int h, getD_eq_get_int hj1] at this
      exact this
    simp only [inTimeRange, decide_eq_true_eq]
    omega
  · intro k h hk
    have hgt := b3 k hk h
    rw [getD_eq_get_int h] at hgt
    simp only [inTimeRange, decide_eq_false_iff_not]
    intro hcon
    omega

/-- The clipped sub-range [i, j) of a sorted timestamp list is exactly the
filter to the inclusive time range. -/
theorem clipped_slice_eq_filter (ts : List Int) (tr : TimeRange)
    (hs : ts.Sorted (· ≤ ·)) :
    ts.filter (inTimeRange tr) =
      (ts.take (shrinkAboveIdx ts tr.MaxTimestamp (skipBelowIdx ts tr.MinTimestamp 0)
          ts.length)).drop (skipBelowIdx ts tr.MinTimestamp 0) := by
  obtain ⟨h1, h2, h3, h4, h5⟩ := clipped_bounds ts tr hs
  exact filter_eq_slice_of_bounds ts (inTimeRange tr) _ _ h1 h2 h3 h4 h5

/-- The same clipped sub-range, taken out of the zipped (timestamp, value)
pairs: positions are classified by their timestamp. -/
theorem clipped_zip_slice_eq_filter (ts : List Int) (vals : List Int) (tr : TimeRange)
    (hs : ts.Sorted (· ≤ ·)) (hlen : vals.length = ts.length) :
    (ts.zip vals).filter (fun q => inTimeRange tr q.1) =
      ((ts.zip vals).take (shrinkAboveIdx ts tr.MaxTimestamp
          (skipBelowIdx ts tr.MinTimestamp 0) ts.length)).drop
        (skipBelowIdx ts tr.MinTimestamp 0) := by
  obtain ⟨h1, h2, h3, h4, h5⟩ := clipped_bounds ts tr hs
  have hzlen : (ts.zip vals).length = ts.length := by
    simp [List.length_zip, hlen]
  have hfst : ∀ (k : Nat) (h : k < (ts.zip vals).length),
      ((ts.zip vals).get ⟨k, h⟩).1 = ts.get ⟨k, by rw [hzlen] at h; exact h⟩ := by
    intro k h
    simp [List.get_eq_getElem, List.getElem_zip]
  apply filter_eq_slice_of_bounds (ts.zip vals) _ _ _ h1 (by rw [hzlen]; exact h2)
  · intro k h hk
    rw [hfst k h]
    exact h3 k _ hk
  · intro k h hik hkj
    rw [hfst k h]
    exact h4 k _ hik hkj
  · intro k h hk
    rw [hfst k h]
    exact h5 k _ hk

/-- Evaluation of unpackFrom on the data path (fetchData = true) when the
block unmarshals: the two scan indices select what is appended. -/
theorem unpackFrom_ok_true (sb : sortBlock) (br : BlockRef) (tr : TimeRange)
    (hok : br.blk.unmarshalOk = true) (i j : Nat)
    (hi : i = skipBelowIdx br.blk.timestamps tr.MinTimestamp 0)
    (hj : j = shrinkAboveIdx br.blk.timestamps tr.MaxTimestamp i br.blk.timestamps.length) :
    sb.unpackFrom br tr true =
      (if i = j then
        .ok (sb, (br.blk.rowsCount : Int) - ((j : Int) - (i : Int)))
      else
        .ok ({ sb with
            Timestamps := sb.Timestamps ++ (br.blk.timestamps.take j).drop i,
            Values := sb.Values ++ ((br.blk.values.take j).drop i).map
              (fun v => decimalToFloat v br.blk.scale) },
          (br.blk.rowsCount : Int) - ((j : Int) - (i : Int)))) := by
  subst hj
  subst hi
  simp [sortBlock.unpackFrom, hok]

/-- Claim C2: for every block whose timestamps are monotonically
non-decreasing, sortBlock.unpackFrom appends exactly the samples whose
timestamps lie in the inclusive range [tr.MinTimestamp, tr.MaxTimestamp]
(computed as the sub-range [i, j)); if i = j the sortBlock stays empty; the
skipped-rows counter is incremented by rows_count() - (j - i), which equals
rows_count() minus the number of in-range samples. -/
theorem claim_C2_unpackFrom_clips (br : BlockRef) (tr : TimeRange)
    (hok : br.blk.unmarshalOk = true)
    (hs : br.blk.timestamps.Sorted (· ≤ ·))
    (hlen : br.blk.values.length = br.blk.timestamps.length) :
    ∃ sb skipped,
      emptySortBlock.unpackFrom br tr true = .ok (sb, skipped) ∧
      sb.Timestamps = br.blk.timestamps.filter (inTimeRange tr) ∧
      sb.Timestamps.zip sb.Values =
        ((br.blk.timestamps.zip br.blk.values).filter
            (fun q => inTimeRange tr q.1)).map
          (fun q => (q.1, decimalToFloat q.2 br.blk.scale)) ∧
      skipped = (br.blk.rowsCount : Int) -
        ((br.blk.timestamps.filter (inTimeRange tr)).length : Int) ∧
      (br.blk.timestamps.filter (inTimeRange tr) = [] → sb = emptySortBlock) := by
  obtain ⟨hij, hjl, -, -, -⟩ := clipped_bounds br.blk.timestamps tr hs
  have hfTs := clipped_slice_eq_filter br.blk.timestamps tr hs
  have hfZs := clipped_zip_slice_eq_filter br.blk.timestamps br.blk.values tr hs hlen
  set i0 := skipBelowIdx br.blk.timestamps tr.MinTimestamp 0 with hi0
  set j0 := shrinkAboveIdx br.blk.timestamps tr.MaxTimestamp i0
    br.blk.timestamps.length with hj0
  have hrun := unpackFrom_ok_true emptySortBlock br tr hok i0 j0 hi0 hj0
  have hfLen : (br.blk.timestamps.filter (inTimeRange tr)).length = j0 - i0 := by
    rw [hfTs]
    simp [List.length_take, List.length_drop, Nat.min_eq_left hjl]
  have hcast : ((j0 : Int) - (i0 : Int)) = ((j0 - i0 : Nat) : Int) := by
    omega
  by_cases hcase : i0 = j0
  · rw [if_pos hcase] at hrun
    have hfNil : br.blk.timestamps.filter (inTimeRange tr) = [] := by
      apply List.eq_nil_of_length_eq_zero
      rw [hfLen]
      omega
    have hfZNil : (br.blk.timestamps.zip br.blk.values).filter
        (fun q => inTimeRange tr q.1) = [] := by
      apply List.eq_nil_of_length_eq_zero
      rw [hfZs]
      simp [List.length_take, List.length_drop, List.length_zip, hlen,
        Nat.min_eq_left hjl]
      omega
    refine ⟨emptySortBlock, _, hrun, ?_, ?_, ?_, fun _ => rfl⟩
    · rw [hfNil]
      rfl
    · rw [hfZNil]
      rfl
    · rw [hfLen, hcast]
  · rw [if_neg hcase] at hrun
    refine ⟨_, _, hrun, ?_, ?_, ?_, ?_⟩
    · show emptySortBlock.Timestamps ++ (br.blk.timestamps.take j0).drop i0 =
        br.blk.timestamps.filter (inTimeRange tr)
      rw [hfTs]
      rfl
    · show (emptySortBlock.Timestamps ++ (br.blk.timestamps.take j0).drop i0).zip
          (emptySortBlock.Values ++ ((br.blk.values.take j0).drop i0).map
            (fun v => decimalToFloat v br.blk.scale)) = _
      have h1 : (emptySortBlock.Timestamps ++ (br.blk.timestamps.take j0).drop i0) =
          (br.blk.timestamps.take j0).drop i0 := rfl
      have h2 : (emptySortBlock.Values ++ ((br.blk.values.take j0).drop i0).map
          (fun v => decimalToFloat v br.blk.scale)) =
          ((br.blk.values.take j0).drop i0).map (fun v => decimalToFloat v br.blk.scale) := rfl
      rw [h1, h2, List.zip_map_right]
      have hzip : ((br.blk.timestamps.take j0).drop i0).zip
          ((br.blk.values.take j0).drop i0) =
          ((br.blk.timestamps.zip br.blk.values).take j0).drop i0 := by
        rw [List.zip_eq_zipWith, List.zip_eq_zipWith, List.take_zipWith, List.drop_zipWith]
      rw [hzip, ← hfZs]
      rfl
    · rw [hcast, hfLen]
    · intro hnil
      exfalso
      have := hfLen
      rw [hnil] at this
      simp at this
      omega

/-- Witness for claim C2: spec scenario S2, block ts=[10,20,30],
vals=[1,2,3], scale=0, clipped to [18,28]. -/
theorem claim_C2_witness :
    ∃ sb skipped,
      emptySortBlock.unpackFrom
          ⟨⟨[10, 20, 30], [1, 2, 3], 0, 3, true⟩⟩ ⟨18, 28⟩ true = .ok (sb, skipped) ∧
      sb.Timestamps =
        List.filter (inTimeRange ⟨18, 28⟩) [10, 20, 30] ∧
      sb.Timestamps.zip sb.Values =
        (List.filter (fun q => inTimeRange ⟨18, 28⟩ q.1)
            (List.zip [10, 20, 30] [1, 2, 3])).map
          (fun q => (q.1, decimalToFloat q.2 0)) ∧
      skipped = (3 : Int) -
        ((List.filter (inTimeRange ⟨18, 28⟩) [10, 20, 30]).length : Int) ∧
      (List.filter (inTimeRange ⟨18, 28⟩) [10, 20, 30] = [] → sb = emptySortBlock) :=
  claim_C2_unpackFrom_clips ⟨⟨[10, 20, 30], [1, 2, 3], 0, 3, true⟩⟩ ⟨18, 28⟩
    (by decide) (by decide) (by decide)

/-! ### The k-way merge engine (mergeSortBlocks) -/

/-- The heap key: Timestamps[NextIdx], the next undelivered timestamp
(sortBlocksHeap.Less compares these). -/
def sbKey (sb : sortBlock) : Int :=
  sb.Timestamps.getD sb.NextIdx 0

/-- Model of container/heap (Go standard library, an external collaborator):
its contract is that index 0 of the underlying slice always holds an element
with minimal key. `heapFix` restores that: it moves one minimal-key element
to the front and keeps the rest, preserving the multiset. heap.Init,
heap.Push and heap.Pop are expressed with it below. Ties between equal keys
are resolved arbitrarily by the real heap; the claims proved about the merge
are tie-independent. -/
def heapFix : List sortBlock → List sortBlock
  | [] => []
  | x :: xs =>
    match heapFix xs with
    | [] => [x]
    | y :: ys => if sbKey y < sbKey x then y :: x :: ys else x :: y :: ys

/-- The total number of undelivered samples across the heap, used as the
loop measure of the merge. -/
def totalRem (l : List sortBlock) : Nat :=
  (l.map (fun sb => sb.Timestamps.length - sb.NextIdx)).sum

/-- The inner scan `for top.Timestamps[idxNext] <= tsNext { idxNext++ }`,
with the bounds check the Go code omits because the caller has established
that a later timestamp exceeds the bound. -/
def advanceIdxGo (ts : List Int) (bound : Int) : Nat → Nat → Nat
  | 0, idx => idx
  | fuel + 1, idx =>
    if idx < ts.length ∧ ts.getD idx 0 ≤ bound then advanceIdxGo ts bound fuel (idx + 1)
    else idx

def advanceIdx (ts : List Int) (bound : Int) (idx : Nat) : Nat :=
  advanceIdxGo ts bound (ts.length - idx) idx

/-- The main merge loop of mergeSortBlocks: pop the minimal block, flush the
longest prefix that does not overtake the new minimum, push the block back
if it still has samples. `fuel` bounds the number of iterations; the merge
entry point passes the total number of undelivered samples, which the
correctness theorem shows is always enough. -/
def mergeLoop : Nat → List Int → List Float64V → List sortBlock → List Int × List Float64V
  | 0, dts, dvs, _ => (dts, dvs)
  | _ + 1, dts, dvs, [] => (dts, dvs)
  | fuel + 1, dts, dvs, top :: rest0 =>
    -- top := sbh[0]; heap.Pop(&sbh)
    match heapFix rest0 with
    | [] =>
      -- len(sbh) == 0: flush the whole remainder of top and stop
      (dts ++ top.Timestamps.drop top.NextIdx, dvs ++ top.Values.drop top.NextIdx)
    | sbNext :: rest =>
      let tsNext := sbKey sbNext
      let idxNext :=
        if tsNext < top.Timestamps.getD (top.Timestamps.length - 1) 0 then
          advanceIdx top.Timestamps tsNext top.NextIdx
        else top.Timestamps.length
      let dts2 := dts ++ (top.Timestamps.take idxNext).drop top.NextIdx
      let dvs2 := dvs ++ (top.Values.take idxNext).drop top.NextIdx
      if idxNext < top.Timestamps.length then
        -- top.NextIdx = idxNext; heap.Push(&sbh, top)
        mergeLoop fuel dts2 dvs2
          (heapFix ((sbNext :: rest) ++ [{ top with NextIdx := idxNext }]))
      else
        -- putSortBlock(top): returned to the pool
        mergeLoop fuel dts2 dvs2 (sbNext :: rest)

/-- mergeSortBlocks before its final dedup pass: skip (and pool) empty
blocks, heap-init the rest, and run the merge loop appending onto dst. -/
def mergeSortBlocksEmit (dts : List Int) (dvs : List Float64V)
    (sbs : List sortBlock) : List Int × List Float64V :=
  let sbh := sbs.filter (fun sb => !sb.Timestamps.isEmpty)
  if sbh.isEmpty then (dts, dvs)
  else mergeLoop (totalRem (heapFix sbh)) dts dvs (heapFix sbh)

/-- Modelled from the spec: storage.DeduplicateSamples, the out-of-scope
adjacent-sample dedup policy: adjacent samples with equal timestamps are
collapsed (the later one is kept). -/
def DeduplicateSamples : List Int → List Float64V → List Int × List Float64V
  | t1 :: t2 :: ts, v1 :: v2 :: vs =>
    if t1 = t2 then DeduplicateSamples (t2 :: ts) (v2 :: vs)
    else
      let r := DeduplicateSamples (t2 :: ts) (v2 :: vs)
      (t1 :: r.1, v1 :: r.2)
  | ts, vs => (ts, vs)

/-- mergeSortBlocks: the merge loop followed by the dedup pass. -/
def mergeSortBlocks (dts : List Int) (dvs : List Float64V)
    (sbs : List sortBlock) : List Int × List Float64V :=
  let r := mergeSortBlocksEmit dts dvs sbs
  DeduplicateSamples r.1 r.2

example :
    mergeSortBlocksEmit [] []
        [⟨[10, 20, 30], [⟨1, 0⟩, ⟨2, 0⟩, ⟨3, 0⟩], 0⟩,
          ⟨[15, 25, 35], [⟨10, 0⟩, ⟨20, 0⟩, ⟨30, 0⟩], 0⟩] =
      ([10, 15, 20, 25, 30, 35],
        [⟨1, 0⟩, ⟨10, 0⟩, ⟨2, 0⟩, ⟨20, 0⟩, ⟨3, 0⟩, ⟨30, 0⟩]) := by
  decide

/-! ### Heap model lemmas -/

/-- heapFix permutes its input. -/
theorem heapFix_perm : ∀ l : List sortBlock, (heapFix l).Perm l := by
  intro l
  induction l with
  | nil => simp [heapFix]
  | cons x xs ih =>
    simp only [heapFix]
    cases hfx : heapFix xs with
    | nil =>
      have hxs : xs = [] := by
        have := ih
        rw [hfx] at this
        exact this.symm.eq_nil
      subst hxs
      dsimp only
      exact List.Perm.refl _
    | cons y ys =>
      rw [hfx] at ih
      dsimp only
      by_cases hk : sbKey y < sbKey x
      · rw [if_pos hk]
        exact List.Perm.trans (List.Perm.swap x y ys) (ih.cons x)
      · rw [if_neg hk]
        exact ih.cons x

theorem heapFix_nil_iff (l : List sortBlock) : heapFix l = [] ↔ l = [] := by
  constructor
  · intro h
    have := heapFix_perm l
    rw [h] at this
    exact this.symm.eq_nil
  · intro h
    simp [h, heapFix]

/-- The head of the output of heapFix has minimal key. -/
theorem heapFix_headMin : ∀ (l : List sortBlock) (h : sortBlock) (t : List sortBlock),
    heapFix l = h :: t → ∀ b ∈ h :: t, sbKey h ≤ sbKey b := by
  intro l
  induction l with
  | nil => intro h t hht; simp [heapFix] at hht
  | cons x xs ih =>
    intro h t hht b hb
    simp only [heapFix] at hht
    cases hfx : heapFix xs with
    | nil =>
      rw [hfx] at hht
      dsimp only at hht
      cases hht
      simp at hb
      simp [hb]
    | cons y ys =>
      have hymin : ∀ b ∈ y :: ys, sbKey y ≤ sbKey b := ih y ys hfx
      rw [hfx] at hht
      dsimp only at hht
      by_cases hk : sbKey y < sbKey x
      · rw [if_pos hk] at hht
        cases hht
        rcases List.mem_cons.mp hb with rfl | hb2
        · exact Int.le_refl _
        · rcases List.mem_cons.mp hb2 with rfl | hb3
          · exact Int.le_of_lt hk
          · exact hymin b (List.mem_cons_of_mem _ hb3)
      · rw [if_neg hk] at hht
        cases hht
        rcases List.mem_cons.mp hb with rfl | hb2
        · exact Int.le_refl _
        · exact Int.le_trans (Int.not_lt.mp hk) (hymin b hb2)

/-- HeadMin: the heap contract at the root — the element at index 0 has
minimal key (vacuously true of the empty heap). -/
def HeadMin : List sortBlock → Prop
  | [] => True
  | h :: t => ∀ b ∈ h :: t, sbKey h ≤ sbKey b

theorem headMin_heapFix (l : List sortBlock) : HeadMin (heapFix l) := by
  cases hfx : heapFix l with
  | nil => trivial
  | cons h t => exact heapFix_headMin l h t hfx

/-! ### Scan, measure and bag lemmas for the merge -/

theorem advanceIdxGo_le (ts : List Int) (bound : Int) :
    ∀ (fuel idx : Nat), idx ≤ advanceIdxGo ts bound fuel idx := by
  intro fuel
  induction fuel with
  | zero => intro idx; exact Nat.le_refl idx
  | succ fuel ih =>
    intro idx
    by_cases hc : idx < ts.length ∧ ts.getD idx 0 ≤ bound
    · have hstep : advanceIdxGo ts bound (fuel + 1) idx = advanceIdxGo ts bound fuel (idx + 1) := by
        simp only [advanceIdxGo, if_pos hc]
      rw [hstep]
      exact Nat.le_trans (Nat.le_succ idx) (ih (idx + 1))
    · have hstep : advanceIdxGo ts bound (fuel + 1) idx = idx := by
        simp only [advanceIdxGo, if_neg hc]
      rw [hstep]

theorem advanceIdxGo_spec (ts : List Int) (bound : Int) :
    ∀ (fuel idx : Nat), ts.length - idx ≤ fuel →
    (idx ≤ ts.length → advanceIdxGo ts bound fuel idx ≤ ts.length) ∧
    (∀ k, idx ≤ k → k < advanceIdxGo ts bound fuel idx → ts.getD k 0 ≤ bound) ∧
    (advanceIdxGo ts bound fuel idx < ts.length →
      bound < ts.getD (advanceIdxGo ts bound fuel idx) 0) := by
  intro fuel
  induction fuel with
  | zero =>
    intro idx hfuel
    refine ⟨fun h => by simpa [advanceIdxGo] using h, ?_, ?_⟩
    · intro k hik hk
      exact absurd hik (Nat.not_le_of_lt (by simpa [advanceIdxGo] using hk))
    · intro hlt
      exact absurd hlt (by simp [advanceIdxGo]; omega)
  | succ fuel ih =>
    intro idx hfuel
    by_cases hc : idx < ts.length ∧ ts.getD idx 0 ≤ bound
    · have hstep : advanceIdxGo ts bound (fuel + 1) idx = advanceIdxGo ts bound fuel (idx + 1) := by
        simp only [advanceIdxGo, if_pos hc]
      obtain ⟨h1, h2, h3⟩ := ih (idx + 1) (by omega)
      rw [hstep]
      refine ⟨fun _ => h1 hc.1, ?_, h3⟩
      intro k hik hk
      rcases Nat.eq_or_lt_of_le hik with h | h
      · exact h ▸ hc.2
      · exact h2 k h hk
    · have hstep : advanceIdxGo ts bound (fuel + 1) idx = idx := by
        simp only [advanceIdxGo, if_neg hc]
      rw [hstep]
      refine ⟨fun h => h, fun k hik hk => absurd hik (Nat.not_le_of_lt hk), ?_⟩
      intro hlt
      rcases Int.lt_or_le bound (ts.getD idx 0) with h | h
      · exact h
      · exact absurd ⟨hlt, h⟩ hc

theorem advanceIdx_le (ts : List Int) (bound : Int) (idx : Nat) :
    idx ≤ advanceIdx ts bound idx :=
  advanceIdxGo_le ts bound (ts.length - idx) idx

theorem advanceIdx_spec (ts : List Int) (bound : Int) (idx : Nat) :
    (idx ≤ ts.length → advanceIdx ts bound idx ≤ ts.length) ∧
    (∀ k, idx ≤ k → k < advanceIdx ts bound idx → ts.getD k 0 ≤ bound) ∧
    (advanceIdx ts bound idx < ts.length → bound < ts.getD (advanceIdx ts bound idx) 0) :=
  advanceIdxGo_spec ts bound (ts.length - idx) idx (Nat.le_refl _)

theorem advanceIdx_progress (ts : List Int) (bound : Int) (idx : Nat)
    (h1 : idx < ts.length) (h2 : ts.getD idx 0 ≤ bound) : idx < advanceIdx ts bound idx := by
  unfold advanceIdx
  have hfuel : ts.length - idx = (ts.length - (idx + 1)) + 1 := by omega
  rw [hfuel]
  have hstep : advanceIdxGo ts bound ((ts.length - (idx + 1)) + 1) idx =
      advanceIdxGo ts bound (ts.length - (idx + 1)) (idx + 1) := by
    simp only [advanceIdxGo, if_pos (And.intro h1 h2)]
  rw [hstep]
  exact Nat.lt_of_lt_of_le (Nat.lt_succ_self idx) (advanceIdxGo_le ts bound _ _)

/-- Splitting the undelivered tail of a list at a middle index. -/
theorem drop_split_at {α : Type} (l : List α) (n m : Nat) (hnm : n ≤ m) :
    l.drop n = (l.take m).drop n ++ l.drop m := by
  have h1 : (l.take m).drop n = (l.drop n).take (m - n) := List.drop_take m n l
  have h2 : l.drop m = (l.drop n).drop (m - n) := by
    rw [List.drop_drop, Nat.add_sub_cancel' hnm]
  rw [h1, h2, List.take_append_drop]

theorem totalRem_perm {l l' : List sortBlock} (h : l.Perm l') : totalRem l = totalRem l' :=
  List.Perm.sum_eq (h.map _)

/-- The undelivered (timestamp, value) pairs of one block. -/
def sampleList (sb : sortBlock) : List (Int × Float64V) :=
  (sb.Timestamps.drop sb.NextIdx).zip (sb.Values.drop sb.NextIdx)

/-- The multiset of undelivered samples across a heap. -/
def heapBag (l : List sortBlock) : Multiset (Int × Float64V) :=
  (l.map (fun sb => (sampleList sb : Multiset (Int × Float64V)))).sum

theorem heapBag_perm {l l' : List sortBlock} (h : l.Perm l') : heapBag l = heapBag l' :=
  List.Perm.sum_eq (h.map _)

theorem heapBag_nil : heapBag [] = 0 := rfl

theorem heapBag_cons (sb : sortBlock) (l : List sortBlock) :
    heapBag (sb :: l) = (sampleList sb : Multiset (Int × Float64V)) + heapBag l := by
  simp [heapBag]

theorem heapBag_append (l l' : List sortBlock) :
    heapBag (l ++ l') = heapBag l + heapBag l' := by
  simp [heapBag]

/-- The sortBlock data-model invariant the merge relies on: sorted
timestamps, values aligned with timestamps, and a cursor that still has
samples to deliver. -/
def GoodBlock (sb : sortBlock) : Prop :=
  sb.Timestamps.Sorted (· ≤ ·) ∧ sb.Values.length = sb.Timestamps.length ∧
    sb.NextIdx < sb.Timestamps.length

theorem totalRem_nil : totalRem [] = 0 := rfl

theorem totalRem_cons (sb : sortBlock) (l : List sortBlock) :
    totalRem (sb :: l) = (sb.Timestamps.length - sb.NextIdx) + totalRem l := by
  simp [totalRem]

theorem totalRem_append (l l' : List sortBlock) :
    totalRem (l ++ l') = totalRem l + totalRem l' := by
  simp [totalRem]

theorem headMin_cons {h : sortBlock} {t : List sortBlock} (hm : HeadMin (h :: t)) :
    ∀ b ∈ h :: t, sbKey h ≤ sbKey b := hm

/-- Membership in a dropped tail, through the original indices. -/
theorem mem_drop_getD {ts : List Int} {n : Nat} {t : Int} (ht : t ∈ ts.drop n) :
    ∃ k, n ≤ k ∧ k < ts.length ∧ t = ts.getD k 0 := by
  obtain ⟨k0, hk0, hkt⟩ := List.mem_iff_getElem.mp ht
  have hlen : (ts.drop n).length = ts.length - n := List.length_drop n ts
  have hnk : n + k0 < ts.length := by omega
  refine ⟨n + k0, Nat.le_add_right n k0, hnk, ?_⟩
  rw [getD_eq_get_int hnk]
  rw [← hkt]
  simp [List.get_eq_getElem]

/-- Membership in the slice [n, m), through the original indices. -/
theorem mem_slice_getD {ts : List Int} {n m : Nat} {t : Int}
    (ht : t ∈ (ts.take m).drop n) :
    ∃ k, n ≤ k ∧ k < m ∧ k < ts.length ∧ t = ts.getD k 0 := by
  obtain ⟨k0, hk0, hkt⟩ := List.mem_iff_getElem.mp ht
  have hlen : ((ts.take m).drop n).length = min m ts.length - n := by
    simp [List.length_take, List.length_drop]
  have hnk : n + k0 < m ∧ n + k0 < ts.length := by omega
  refine ⟨n + k0, Nat.le_add_right n k0, hnk.1, hnk.2, ?_⟩
  rw [getD_eq_get_int hnk.2]
  rw [← hkt]
  simp [List.get_eq_getElem]

/-- One step of the merge loop when the post-pop heap is non-empty. -/
theorem mergeLoop_cons_eval (fuel : Nat) (dts : List Int) (dvs : List Float64V)
    (top sbNext : sortBlock) (rest0 rest : List sortBlock) (idxN : Nat)
    (hF : heapFix rest0 = sbNext :: rest)
    (hidx : idxN =
      if sbKey sbNext < top.Timestamps.getD (top.Timestamps.length - 1) 0 then
        advanceIdx top.Timestamps (sbKey sbNext) top.NextIdx
      else top.Timestamps.length) :
    mergeLoop (fuel + 1) dts dvs (top :: rest0) =
      if idxN < top.Timestamps.length then
        mergeLoop fuel (dts ++ (top.Timestamps.take idxN).drop top.NextIdx)
          (dvs ++ (top.Values.take idxN).drop top.NextIdx)
          (heapFix ((sbNext :: rest) ++ [{ top with NextIdx := idxN }]))
      else
        mergeLoop fuel (dts ++ (top.Timestamps.take idxN).drop top.NextIdx)
          (dvs ++ (top.Values.take idxN).drop top.NextIdx)
          (sbNext :: rest) := by
  subst hidx
  simp only [mergeLoop]
  rw [hF]

/-- The merge loop, run with enough fuel on a well-formed heap, emits a
sorted sequence above the lower bound whose sample multiset is exactly the
undelivered samples of the heap. -/
theorem mergeLoop_spec :
    ∀ (fuel : Nat) (sbh : List sortBlock) (dts : List Int) (dvs : List Float64V) (lb : Int),
      totalRem sbh ≤ fuel →
      (∀ sb ∈ sbh, GoodBlock sb) →
      HeadMin sbh →
      (∀ sb ∈ sbh, lb ≤ sbKey sb) →
      ∃ ots ovs,
        mergeLoop fuel dts dvs sbh = (dts ++ ots, dvs ++ ovs) ∧
        ots.length = ovs.length ∧
        ots.Sorted (· ≤ ·) ∧
        (∀ t ∈ ots, lb ≤ t) ∧
        ((ots.zip ovs : List (Int × Float64V)) : Multiset (Int × Float64V)) = heapBag sbh := by
  intro fuel
  induction fuel with
  | zero =>
    intro sbh dts dvs lb hfuel hgood hhm hlb
    cases sbh with
    | nil =>
      exact ⟨[], [], by simp [mergeLoop], rfl, List.sorted_nil, by simp, by simp [heapBag_nil]⟩
    | cons top rest0 =>
      exfalso
      obtain ⟨-, -, htopNI⟩ := hgood top (List.mem_cons_self top rest0)
      rw [totalRem_cons] at hfuel
      omega
  | succ fuel ih =>
    intro sbh dts dvs lb hfuel hgood hhm hlb
    cases sbh with
    | nil =>
      exact ⟨[], [], by simp [mergeLoop], rfl, List.sorted_nil, by simp, by simp [heapBag_nil]⟩
    | cons top rest0 =>
      obtain ⟨htopSort, htopLen, htopNI⟩ := hgood top (List.mem_cons_self top rest0)
      have hlbtop : lb ≤ sbKey top := hlb top (List.mem_cons_self top rest0)
      cases hF : heapFix rest0 with
      | nil =>
        have hrest0 : rest0 = [] := (heapFix_nil_iff rest0).mp hF
        subst hrest0
        refine ⟨top.Timestamps.drop top.NextIdx, top.Values.drop top.NextIdx,
          ?_, ?_, ?_, ?_, ?_⟩
        · simp only [mergeLoop, heapFix]
        · simp [htopLen]
        · exact List.Pairwise.sublist (List.drop_sublist _ _) htopSort
        · intro t ht
          obtain ⟨k, hk1, hk2, hk3⟩ := mem_drop_getD ht
          have hmono : sbKey top ≤ top.Timestamps.getD k 0 :=
            sorted_getD_mono htopSort hk1 hk2
          omega
        · simp [heapBag_cons, heapBag_nil, sampleList]
      | cons sbNext rest =>
        have hperm : (sbNext :: rest).Perm rest0 := by
          rw [← hF]
          exact heapFix_perm rest0
        have hhm2 : HeadMin (sbNext :: rest) := by
          rw [← hF]
          exact headMin_heapFix rest0
        have hkeys2 : ∀ sb ∈ sbNext :: rest, sbKey sbNext ≤ sbKey sb := headMin_cons hhm2
        have hmemSbh : ∀ sb ∈ sbNext :: rest, sb ∈ top :: rest0 := by
          intro sb hsb
          exact List.mem_cons_of_mem top (hperm.subset hsb)
        have hgood2 : ∀ sb ∈ sbNext :: rest, GoodBlock sb :=
          fun sb hsb => hgood sb (hmemSbh sb hsb)
        have hlb2 : ∀ sb ∈ sbNext :: rest, lb ≤ sbKey sb :=
          fun sb hsb => hlb sb (hmemSbh sb hsb)
        have hkeyTopNext : sbKey top ≤ sbKey sbNext :=
          headMin_cons hhm sbNext (hmemSbh sbNext (List.mem_cons_self sbNext rest))
        have hlbNext : lb ≤ sbKey sbNext := hlb2 sbNext (List.mem_cons_self sbNext rest)
        obtain ⟨idxN, hidx⟩ : ∃ n, n =
            (if sbKey sbNext < top.Timestamps.getD (top.Timestamps.length - 1) 0 then
              advanceIdx top.Timestamps (sbKey sbNext) top.NextIdx
            else top.Timestamps.length) := ⟨_, rfl⟩
        have hstep := mergeLoop_cons_eval fuel dts dvs top sbNext rest0 rest idxN hF hidx
        have hfacts : top.NextIdx < idxN ∧ idxN ≤ top.Timestamps.length ∧
            (∀ k, top.NextIdx ≤ k → k < idxN →
              top.Timestamps.getD k 0 ≤ sbKey sbNext) ∧
            (idxN < top.Timestamps.length →
              sbKey sbNext < top.Timestamps.getD idxN 0) := by
          rw [hidx]
          by_cases hbr : sbKey sbNext < top.Timestamps.getD (top.Timestamps.length - 1) 0
          · rw [if_pos hbr]
            obtain ⟨a1, a2, a3⟩ := advanceIdx_spec top.Timestamps (sbKey sbNext) top.NextIdx
            have hprog : top.NextIdx < advanceIdx top.Timestamps (sbKey sbNext) top.NextIdx :=
              advanceIdx_progress _ _ _ htopNI hkeyTopNext
            have hle : advanceIdx top.Timestamps (sbKey sbNext) top.NextIdx ≤
                top.Timestamps.length := a1 (Nat.le_of_lt htopNI)
            have hlt : advanceIdx top.Timestamps (sbKey sbNext) top.NextIdx <
                top.Timestamps.length := by
              rcases Nat.lt_or_ge (advanceIdx top.Timestamps (sbKey sbNext) top.NextIdx)
                top.Timestamps.length with h | h
              · exact h
              · exfalso
                have heq : advanceIdx top.Timestamps (sbKey sbNext) top.NextIdx =
                    top.Timestamps.length := Nat.le_antisymm hle h
                have hlast := a2 (top.Timestamps.length - 1) (by omega) (by omega)
                omega
            exact ⟨hprog, hle, a2, a3⟩
          · rw [if_neg hbr]
            refine ⟨htopNI, Nat.le_refl _, ?_, fun h => absurd h (Nat.lt_irrefl _)⟩
            intro k hk hkl
            have h1 : top.Timestamps.getD k 0 ≤
                top.Timestamps.getD (top.Timestamps.length - 1) 0 :=
              sorted_getD_mono htopSort (by omega) (by omega)
            omega
        obtain ⟨hNI, hIle, hinner, hstop⟩ := hfacts
        have hsegLen : ((top.Timestamps.take idxN).drop top.NextIdx).length =
            ((top.Values.take idxN).drop top.NextIdx).length := by
          simp [List.length_take, List.length_drop, htopLen]
        have hsegSorted : ((top.Timestamps.take idxN).drop top.NextIdx).Sorted (· ≤ ·) :=
          List.Pairwise.sublist
            (List.Sublist.trans (List.drop_sublist _ _) (List.take_sublist _ _)) htopSort
        have hsegLb : ∀ t ∈ (top.Timestamps.take idxN).drop top.NextIdx, lb ≤ t := by
          intro t ht
          obtain ⟨k, hk1, hk2, hk3, hk4⟩ := mem_slice_getD ht
          have hmono : sbKey top ≤ top.Timestamps.getD k 0 :=
            sorted_getD_mono htopSort hk1 hk3
          omega
        have hsegUb : ∀ t ∈ (top.Timestamps.take idxN).drop top.NextIdx,
            t ≤ sbKey sbNext := by
          intro t ht
          obtain ⟨k, hk1, hk2, hk3, hk4⟩ := mem_slice_getD ht
          have hin := hinner k hk1 hk2
          omega
        have hsampleSplit : sampleList top =
            ((top.Timestamps.take idxN).drop top.NextIdx).zip
              ((top.Values.take idxN).drop top.NextIdx) ++
            sampleList { top with NextIdx := idxN } := by
          have h1 : top.Timestamps.drop top.NextIdx =
              (top.Timestamps.take idxN).drop top.NextIdx ++ top.Timestamps.drop idxN :=
            drop_split_at _ _ _ (Nat.le_of_lt hNI)
          have h2 : top.Values.drop top.NextIdx =
              (top.Values.take idxN).drop top.NextIdx ++ top.Values.drop idxN :=
            drop_split_at _ _ _ (Nat.le_of_lt hNI)
          show (top.Timestamps.drop top.NextIdx).zip (top.Values.drop top.NextIdx) = _
          rw [h1, h2, List.zip_append hsegLen]
          rfl
        by_cases hpush : idxN < top.Timestamps.length
        · rw [hstep, if_pos hpush]
          have hpermNew : (heapFix ((sbNext :: rest) ++
              [{ top with NextIdx := idxN }])).Perm
              ((sbNext :: rest) ++ [{ top with NextIdx := idxN }]) := heapFix_perm _
          have htotalNew : totalRem (heapFix ((sbNext :: rest) ++
              [{ top with NextIdx := idxN }])) ≤ fuel := by
            have e1 : totalRem ((sbNext :: rest) ++ [{ top with NextIdx := idxN }]) =
                totalRem rest0 + (top.Timestamps.length - idxN) := by
              rw [totalRem_append, totalRem_perm hperm]
              simp [totalRem_cons, totalRem_nil]
            rw [totalRem_perm hpermNew, e1]
            rw [totalRem_cons] at hfuel
            omega
          have hgoodNew : ∀ sb ∈ heapFix ((sbNext :: rest) ++
              [{ top with NextIdx := idxN }]), GoodBlock sb := by
            intro sb hsb
            rcases List.mem_append.mp (hpermNew.subset hsb) with h | h
            · exact hgood2 sb h
            · have heq := List.mem_singleton.mp h
              subst heq
              exact ⟨htopSort, htopLen, hpush⟩
          have hhmNew : HeadMin (heapFix ((sbNext :: rest) ++
              [{ top with NextIdx := idxN }])) := headMin_heapFix _
          have hlbNew : ∀ sb ∈ heapFix ((sbNext :: rest) ++
              [{ top with NextIdx := idxN }]), sbKey sbNext ≤ sbKey sb := by
            intro sb hsb
            rcases List.mem_append.mp (hpermNew.subset hsb) with h | h
            · exact hkeys2 sb h
            · have heq := List.mem_singleton.mp h
              subst heq
              exact Int.le_of_lt (hstop hpush)
          obtain ⟨ots', ovs', hml, hlen', hsort', hlb', hbag'⟩ :=
            ih (heapFix ((sbNext :: rest) ++ [{ top with NextIdx := idxN }]))
              (dts ++ (top.Timestamps.take idxN).drop top.NextIdx)
              (dvs ++ (top.Values.take idxN).drop top.NextIdx)
              (sbKey sbNext) htotalNew hgoodNew hhmNew hlbNew
          refine ⟨(top.Timestamps.take idxN).drop top.NextIdx ++ ots',
            (top.Values.take idxN).drop top.NextIdx ++ ovs', ?_, ?_, ?_, ?_, ?_⟩
          · rw [hml, List.append_assoc, List.append_assoc]
          · simp [hsegLen, hlen']
          · refine List.pairwise_append.mpr ⟨hsegSorted, hsort', ?_⟩
            intro x hx y hy
            exact Int.le_trans (hsegUb x hx) (hlb' y hy)
          · intro t ht
            rcases List.mem_append.mp ht with h | h
            · exact hsegLb t h
            · exact Int.le_trans hlbNext (hlb' t h)
          · rw [List.zip_append hsegLen, ← Multiset.coe_add, hbag',
              heapBag_perm hpermNew, heapBag_append, heapBag_perm hperm,
              heapBag_cons, heapBag_nil, heapBag_cons, hsampleSplit,
              ← Multiset.coe_add]
            abel
        · rw [hstep, if_neg hpush]
          have hidxLen : idxN = top.Timestamps.length :=
            Nat.le_antisymm hIle (Nat.le_of_not_lt hpush)
          have hsampleTail : sampleList { top with NextIdx := idxN } = [] := by
            simp [sampleList, hidxLen]
          have htotalNew : totalRem (sbNext :: rest) ≤ fuel := by
            rw [totalRem_perm hperm]
            rw [totalRem_cons] at hfuel
            omega
          obtain ⟨ots', ovs', hml, hlen', hsort', hlb', hbag'⟩ :=
            ih (sbNext :: rest)
              (dts ++ (top.Timestamps.take idxN).drop top.NextIdx)
              (dvs ++ (top.Values.take idxN).drop top.NextIdx)
              (sbKey sbNext) htotalNew hgood2 hhm2 hkeys2
          refine ⟨(top.Timestamps.take idxN).drop top.NextIdx ++ ots',
            (top.Values.take idxN).drop top.NextIdx ++ ovs', ?_, ?_, ?_, ?_, ?_⟩
          · rw [hml, List.append_assoc, List.append_assoc]
          · simp [hsegLen, hlen']
          · refine List.pairwise_append.mpr ⟨hsegSorted, hsort', ?_⟩
            intro x hx y hy
            exact Int.le_trans (hsegUb x hx) (hlb' y hy)
          · intro t ht
            rcases List.mem_append.mp ht with h | h
            · exact hsegLb t h
            · exact Int.le_trans hlbNext (hlb' t h)
          · rw [List.zip_append hsegLen, ← Multiset.coe_add, hbag',
              heapBag_perm hperm, heapBag_cons, hsampleSplit, hsampleTail,
              List.append_nil]

/-- Claim C1: for every collection of sortBlocks with non-decreasing
Timestamps, len(Timestamps) = len(Values) and their merge cursor at the
start, mergeSortBlocks appends to dst (before the final dedup pass) a
time-ordered (non-decreasing) sequence whose multiset of (timestamp, value)
samples equals the union of the samples remaining in all non-empty input
blocks. -/
theorem claim_C1_mergeSortBlocks_emit (sbs : List sortBlock)
    (dts : List Int) (dvs : List Float64V)
    (hsort : ∀ sb ∈ sbs, sb.Timestamps.Sorted (· ≤ ·))
    (hlen : ∀ sb ∈ sbs, sb.Values.length = sb.Timestamps.length)
    (hcur : ∀ sb ∈ sbs, sb.NextIdx = 0) :
    ∃ ots ovs,
      mergeSortBlocksEmit dts dvs sbs = (dts ++ ots, dvs ++ ovs) ∧
      ots.length = ovs.length ∧
      ots.Sorted (· ≤ ·) ∧
      ((ots.zip ovs : List (Int × Float64V)) : Multiset (Int × Float64V)) =
        heapBag (sbs.filter (fun sb => !sb.Timestamps.isEmpty)) := by
  by_cases hemp : (sbs.filter (fun sb => !sb.Timestamps.isEmpty)).isEmpty = true
  · refine ⟨[], [], ?_, rfl, List.sorted_nil, ?_⟩
    · simp only [mergeSortBlocksEmit, hemp, if_true]
      simp
    · rw [List.isEmpty_iff.mp hemp]
      simp [heapBag_nil]
  · have hrun : mergeSortBlocksEmit dts dvs sbs =
        mergeLoop (totalRem (heapFix (sbs.filter (fun sb => !sb.Timestamps.isEmpty))))
          dts dvs (heapFix (sbs.filter (fun sb => !sb.Timestamps.isEmpty))) := by
      simp only [mergeSortBlocksEmit, hemp, if_false]
      rfl
    have hgoodH : ∀ sb ∈ heapFix (sbs.filter (fun sb => !sb.Timestamps.isEmpty)),
        GoodBlock sb := by
      intro sb hsb
      have hsb2 := (heapFix_perm _).subset hsb
      have hsb3 := List.mem_filter.mp hsb2
      have hne : ¬ sb.Timestamps.isEmpty = true := by
        simpa using hsb3.2
      have hpos : 0 < sb.Timestamps.length := by
        cases hts : sb.Timestamps with
        | nil => rw [hts] at hne; simp at hne
        | cons a l => simp [hts]
      refine ⟨hsort sb hsb3.1, hlen sb hsb3.1, ?_⟩
      rw [hcur sb hsb3.1]
      exact hpos
    have hhmH : HeadMin (heapFix (sbs.filter (fun sb => !sb.Timestamps.isEmpty))) :=
      headMin_heapFix _
    cases hF : heapFix (sbs.filter (fun sb => !sb.Timestamps.isEmpty)) with
    | nil =>
      exfalso
      have := (heapFix_nil_iff _).mp hF
      rw [this] at hemp
      simp at hemp
    | cons hd tl =>
      have hlbH : ∀ sb ∈ heapFix (sbs.filter (fun sb => !sb.Timestamps.isEmpty)),
          sbKey hd ≤ sbKey sb := by
        rw [hF]
        exact heapFix_headMin _ hd tl hF
      obtain ⟨ots, ovs, hml, hlele, hsorted, hbound, hbag⟩ :=
        mergeLoop_spec (totalRem (heapFix (sbs.filter (fun sb => !sb.Timestamps.isEmpty))))
          (heapFix (sbs.filter (fun sb => !sb.Timestamps.isEmpty))) dts dvs (sbKey hd)
          (Nat.le_refl _) hgoodH hhmH hlbH
      refine ⟨ots, ovs, ?_, hlele, hsorted, ?_⟩
      · rw [hrun, hml]
      · rw [hbag]
        exact heapBag_perm (heapFix_perm _)

/-- Witness for claim C1: spec scenario S1, two overlapping blocks merged
into one time-ordered stream. -/
theorem claim_C1_witness :
    ∃ ots ovs,
      mergeSortBlocksEmit [] []
          [⟨[10, 20, 30], [⟨1, 0⟩, ⟨2, 0⟩, ⟨3, 0⟩], 0⟩,
            ⟨[15, 25, 35], [⟨10, 0⟩, ⟨20, 0⟩, ⟨30, 0⟩], 0⟩] =
        ([] ++ ots, [] ++ ovs) ∧
      ots.length = ovs.length ∧
      ots.Sorted (· ≤ ·) ∧
      ((ots.zip ovs : List (Int × Float64V)) : Multiset (Int × Float64V)) =
        heapBag (List.filter (fun sb => !sb.Timestamps.isEmpty)
          [⟨[10, 20, 30], [⟨1, 0⟩, ⟨2, 0⟩, ⟨3, 0⟩], 0⟩,
            ⟨[15, 25, 35], [⟨10, 0⟩, ⟨20, 0⟩, ⟨30, 0⟩], 0⟩]) :=
  claim_C1_mergeSortBlocks_emit
    [⟨[10, 20, 30], [⟨1, 0⟩, ⟨2, 0⟩, ⟨3, 0⟩], 0⟩,
      ⟨[15, 25, 35], [⟨10, 0⟩, ⟨20, 0⟩, ⟨30, 0⟩], 0⟩] [] []
    (by decide) (by decide) (by decide)

/-! ### The block-unpack pipeline (unpackWork, packedTimeseries.Unpack) -/

/-- unpackWorkItem: one (BlockRef, TimeRange) pair of a batch. -/
structure unpackWorkItem where
  br : BlockRef
  tr : TimeRange
deriving Repr, DecidableEq

/-- What one unpack unit reports when awaited, together with the pool
traffic it generated: `err` is what it sends on its doneCh, `sbs` the
blocks accumulated in upw.sbs, `sbGets`/`sbPuts` the number of
getSortBlock/putSortBlock calls the unit itself performed. -/
structure unpackUnitOut where
  err : Option String
  sbs : List sortBlock
  sbGets : Nat
  sbPuts : Nat
deriving Repr, DecidableEq

/-- upw.unpack: decode each item of the batch in order into a fresh pooled
sortBlock; on the first failure release that block, send the error and
abandon the rest; otherwise send success. -/
def unpackWorkRun (fetchData : Bool) : List unpackWorkItem → unpackUnitOut
  | [] => ⟨none, [], 0, 0⟩
  | w :: ws =>
    match emptySortBlock.unpackFrom w.br w.tr fetchData with
    | .error e => ⟨some ("cannot unpack block: " ++ e), [], 1, 1⟩
    | .ok (sb, _skipped) =>
      let r := unpackWorkRun fetchData ws
      ⟨r.err, sb :: r.sbs, r.sbGets + 1, r.sbPuts⟩

/-- The batching loop of Unpack: flush the current unit when it already
holds unpackBatchSize items, then append; the final (possibly empty) unit
is always enqueued. -/
def makeBatchesGo (batchSize : Nat) :
    List unpackWorkItem → List unpackWorkItem → List (List unpackWorkItem)
  | [], cur => [cur]
  | w :: ws, cur =>
    if batchSize ≤ cur.length then cur :: makeBatchesGo batchSize ws [w]
    else makeBatchesGo batchSize ws (cur ++ [w])

/-- The state of the await loop of Unpack. -/
structure unpackAwaitOut where
  firstErr : Option String
  sbs : List sortBlock
  sbPuts : Nat
  upwPuts : Nat
deriving Repr, DecidableEq

/-- The await loop of Unpack: consume every unit's doneCh in enqueue order,
keep the first error; while no error has been seen, collect the unit's
blocks; afterwards release them to the pool; always release the unit. -/
def awaitUnitsGo (firstErr : Option String) (sbs : List sortBlock)
    (sbPuts upwPuts : Nat) : List unpackUnitOut → unpackAwaitOut
  | [] => ⟨firstErr, sbs, sbPuts, upwPuts⟩
  | u :: us =>
    let firstErr2 :=
      match firstErr, u.err with
      | none, some e => some e
      | _, _ => firstErr
    match firstErr2 with
    | none => awaitUnitsGo none (sbs ++ u.sbs) sbPuts (upwPuts + 1) us
    | some e => awaitUnitsGo (some e) sbs (sbPuts + u.sbs.length) (upwPuts + 1) us

/-- packedTimeseries: one series, its metric name (with the boundary
storage.MetricName.Unmarshal outcome modelled as a flag) and its blocks. -/
structure packedTimeseries where
  metricName : String
  metricNameOk : Bool
  brs : List BlockRef
deriving Repr, DecidableEq

/-- What packedTimeseries.Unpack produces: the merged Result samples or the
first error, plus the pool traffic of the whole call. -/
structure unpackOut where
  res : Except String (List Int × List Float64V)
  sbGets : Nat
  sbPuts : Nat
  upwPuts : Nat
  unitsAwaited : Nat
deriving Repr

/-- packedTimeseries.Unpack: reset dst, unmarshal the metric name, feed the
batched units to the unpack workers, await them in enqueue order keeping
the first error, release pool objects as the source does, and on success
merge the collected blocks into dst. On the success path mergeSortBlocks
returns every collected block to the pool, which the accounting includes. -/
def packedTimeseries.Unpack (pts : packedTimeseries) (tr : TimeRange)
    (fetchData : Bool) (batchSize : Nat) : unpackOut :=
  if pts.metricNameOk = false then
    ⟨.error ("cannot unmarshal metricName"), 0, 0, 0, 0⟩
  else
    let items := pts.brs.map (fun br => unpackWorkItem.mk br tr)
    let batches := makeBatchesGo batchSize items []
    let units := batches.map (unpackWorkRun fetchData)
    let a := awaitUnitsGo none [] 0 0 units
    let gets := (units.map (fun u => u.sbGets)).sum
    let unitPuts := (units.map (fun u => u.sbPuts)).sum
    match a.firstErr with
    | some e => ⟨.error e, gets, unitPuts + a.sbPuts, a.upwPuts, units.length⟩
    | none =>
      -- mergeSortBlocks(dst, sbs) puts every block of a.sbs back
      ⟨.ok (mergeSortBlocks [] [] a.sbs), gets,
        unitPuts + a.sbPuts + a.sbs.length, a.upwPuts, units.length⟩

/-- Pool accounting of one unpack unit: every block it obtained is either
in its output or was released by the unit itself, and a unit releases a
block only on failure. -/
theorem unpackWorkRun_accounting (fetchData : Bool) (ws : List unpackWorkItem) :
    (unpackWorkRun fetchData ws).sbGets =
      (unpackWorkRun fetchData ws).sbs.length + (unpackWorkRun fetchData ws).sbPuts ∧
    ((unpackWorkRun fetchData ws).err = none → (unpackWorkRun fetchData ws).sbPuts = 0) := by
  induction ws with
  | nil => exact ⟨rfl, fun _ => rfl⟩
  | cons w ws ih =>
    simp only [unpackWorkRun]
    cases hu : emptySortBlock.unpackFrom w.br w.tr fetchData with
    | error e => exact ⟨rfl, by simp⟩
    | ok p =>
      refine ⟨?_, ?_⟩
      · simp only [List.length_cons]
        omega
      · intro he
        exact ih.2 he

theorem awaitUnitsGo_allOk_front :
    ∀ (pre : List unpackUnitOut), (∀ u ∈ pre, u.err = none) →
    ∀ (sbs : List sortBlock) (p q : Nat) (rest : List unpackUnitOut),
      awaitUnitsGo none sbs p q (pre ++ rest) =
        awaitUnitsGo none (sbs ++ (pre.map (fun u => u.sbs)).flatten) p
          (q + pre.length) rest := by
  intro pre
  induction pre with
  | nil =>
    intro h sbs p q rest
    simp
  | cons u pre ih =>
    intro h sbs p q rest
    have hu : u.err = none := h u (List.mem_cons_self u pre)
    have hstep : awaitUnitsGo none sbs p q ((u :: pre) ++ rest) =
        awaitUnitsGo none (sbs ++ u.sbs) p (q + 1) (pre ++ rest) := by
      simp only [List.cons_append, awaitUnitsGo, hu, List.append_eq]
    rw [hstep, ih (fun v hv => h v (List.mem_cons_of_mem u hv)) (sbs ++ u.sbs) p (q + 1) rest]
    have h1 : sbs ++ (List.map (fun u => u.sbs) (u :: pre)).flatten =
        (sbs ++ u.sbs) ++ (List.map (fun u => u.sbs) pre).flatten := by
      simp [List.append_assoc]
    have h2 : q + (u :: pre).length = (q + 1) + pre.length := by
      simp [List.length_cons]
      omega
    rw [h1, h2]

theorem awaitUnitsGo_err :
    ∀ (us : List unpackUnitOut) (e : String) (sbs : List sortBlock) (p q : Nat),
      awaitUnitsGo (some e) sbs p q us =
        ⟨some e, sbs, p + (us.map (fun u => u.sbs.length)).sum, q + us.length⟩ := by
  intro us
  induction us with
  | nil =>
    intro e sbs p q
    simp [awaitUnitsGo]
  | cons u us ih =>
    intro e sbs p q
    have hstep : awaitUnitsGo (some e) sbs p q (u :: us) =
        awaitUnitsGo (some e) sbs (p + u.sbs.length) (q + 1) us := by
      simp only [awaitUnitsGo]
    rw [hstep, ih]
    simp only [List.map_cons, List.sum_cons, List.length_cons]
    congr 1
    · omega
    · omega

/-- Claim C3 (amended): on an erroring run, Unpack awaits every enqueued
unit in enqueue order, returns the first error and releases every consumed
UnpackWork, but releases only the sortBlocks of the erroring unit and of
the units awaited after it: the blocks of units that completed successfully
before the first error are dropped without being returned to the pool, so
the pool gets back exactly sbGets minus their count. -/
theorem claim_C3_unpack_error_path (pts : packedTimeseries) (tr : TimeRange)
    (fetchData : Bool) (batchSize : Nat) (e : String)
    (pre post : List unpackUnitOut) (bad : unpackUnitOut)
    (hname : pts.metricNameOk = true)
    (hsplit : (makeBatchesGo batchSize (pts.brs.map (fun br => unpackWorkItem.mk br tr))
        []).map (unpackWorkRun fetchData) = pre ++ bad :: post)
    (hpre : ∀ u ∈ pre, u.err = none)
    (hbad : bad.err = some e) :
    (pts.Unpack tr fetchData batchSize).res = .error e ∧
    (pts.Unpack tr fetchData batchSize).unitsAwaited = (pre ++ bad :: post).length ∧
    (pts.Unpack tr fetchData batchSize).upwPuts = (pre ++ bad :: post).length ∧
    (pts.Unpack tr fetchData batchSize).sbGets =
      (pts.Unpack tr fetchData batchSize).sbPuts +
        (pre.map (fun u => u.sbs.length)).sum := by
  have hawait : awaitUnitsGo none [] 0 0 (pre ++ bad :: post) =
      ⟨some e, [] ++ (pre.map (fun u => u.sbs)).flatten,
        (0 + bad.sbs.length) + (post.map (fun u => u.sbs.length)).sum,
        (pre.length + 1) + post.length⟩ := by
    rw [awaitUnitsGo_allOk_front pre hpre [] 0 0 (bad :: post)]
    have hstep : awaitUnitsGo none ([] ++ (pre.map (fun u => u.sbs)).flatten) 0
        (0 + pre.length) (bad :: post) =
        awaitUnitsGo (some e) ([] ++ (pre.map (fun u => u.sbs)).flatten)
          (0 + bad.sbs.length) ((0 + pre.length) + 1) post := by
      simp only [awaitUnitsGo, hbad]
    rw [hstep, awaitUnitsGo_err]
    simp
  have hcond : ¬ (pts.metricNameOk = false) := by
    simp [hname]
  have hval : pts.Unpack tr fetchData batchSize =
      ⟨.error e,
        ((pre ++ bad :: post).map (fun u => u.sbGets)).sum,
        ((pre ++ bad :: post).map (fun u => u.sbPuts)).sum +
          ((0 + bad.sbs.length) + (post.map (fun u => u.sbs.length)).sum),
        (pre.length + 1) + post.length,
        (pre ++ bad :: post).length⟩ := by
    unfold packedTimeseries.Unpack
    rw [if_neg hcond]
    simp only [hsplit, hawait]
  have hacc : ∀ u ∈ pre ++ bad :: post, u.sbGets = u.sbs.length + u.sbPuts := by
    intro u hu
    rw [← hsplit] at hu
    obtain ⟨ws, hws, hueq⟩ := List.mem_map.mp hu
    rw [← hueq]
    exact (unpackWorkRun_accounting fetchData ws).1
  have hgets : ((pre ++ bad :: post).map (fun u => u.sbGets)).sum =
      ((pre ++ bad :: post).map (fun u => u.sbs.length)).sum +
      ((pre ++ bad :: post).map (fun u => u.sbPuts)).sum := by
    have hmapeq : (pre ++ bad :: post).map (fun u => u.sbGets) =
        (pre ++ bad :: post).map (fun u => u.sbs.length + u.sbPuts) :=
      List.map_congr_left hacc
    rw [hmapeq, ← List.sum_map_add]
  rw [hval]
  dsimp only
  refine ⟨rfl, rfl, ?_, ?_⟩
  · simp [List.length_append, List.length_cons]
    omega
  · rw [hgets]
    have hsplit2 : ((pre ++ bad :: post).map (fun u => u.sbs.length)).sum =
        (pre.map (fun u => u.sbs.length)).sum + bad.sbs.length +
        (post.map (fun u => u.sbs.length)).sum := by
      simp [List.map_append, List.sum_append]
      omega
    rw [hsplit2]
    omega

/-- Counterexample to claim C3 as stated: a run of Unpack in which the
first unit succeeds with one block and the second unit errors. Unpack
returns the error, but the block produced by the successful unit awaited
before the error is never released: one putSortBlock against two
getSortBlock calls, refuting "releases all produced SortBlocks from every
unit back to the pool". -/
theorem claim_C3_counterexample :
    (packedTimeseries.Unpack
        ⟨"m", true, [⟨⟨[1], [1], 0, 1, true⟩⟩, ⟨⟨[1], [1], 0, 1, false⟩⟩]⟩
        ⟨0, 10⟩ true 1).res.isOk = false ∧
    ¬ ((packedTimeseries.Unpack
        ⟨"m", true, [⟨⟨[1], [1], 0, 1, true⟩⟩, ⟨⟨[1], [1], 0, 1, false⟩⟩]⟩
        ⟨0, 10⟩ true 1).sbPuts =
      (packedTimeseries.Unpack
        ⟨"m", true, [⟨⟨[1], [1], 0, 1, true⟩⟩, ⟨⟨[1], [1], 0, 1, false⟩⟩]⟩
        ⟨0, 10⟩ true 1).sbGets) := by
  decide

/-- Witness for the amended claim C3, on the same two-unit run. -/
theorem claim_C3_witness :
    (packedTimeseries.Unpack
        ⟨"m", true, [⟨⟨[1], [1], 0, 1, true⟩⟩, ⟨⟨[1], [1], 0, 1, false⟩⟩]⟩
        ⟨0, 10⟩ true 1).res = .error ("cannot unpack block: cannot unmarshal block") ∧
    (packedTimeseries.Unpack
        ⟨"m", true, [⟨⟨[1], [1], 0, 1, true⟩⟩, ⟨⟨[1], [1], 0, 1, false⟩⟩]⟩
        ⟨0, 10⟩ true 1).unitsAwaited =
      (([⟨none, [⟨[1], [⟨1, 0⟩], 0⟩], 1, 0⟩] : List unpackUnitOut) ++
        (⟨some ("cannot unpack block: cannot unmarshal block"), [], 1, 1⟩ :
          unpackUnitOut) :: []).length ∧
    (packedTimeseries.Unpack
        ⟨"m", true, [⟨⟨[1], [1], 0, 1, true⟩⟩, ⟨⟨[1], [1], 0, 1, false⟩⟩]⟩
        ⟨0, 10⟩ true 1).upwPuts =
      (([⟨none, [⟨[1], [⟨1, 0⟩], 0⟩], 1, 0⟩] : List unpackUnitOut) ++
        (⟨some ("cannot unpack block: cannot unmarshal block"), [], 1, 1⟩ :
          unpackUnitOut) :: []).length ∧
    (packedTimeseries.Unpack
        ⟨"m", true, [⟨⟨[1], [1], 0, 1, true⟩⟩, ⟨⟨[1], [1], 0, 1, false⟩⟩]⟩
        ⟨0, 10⟩ true 1).sbGets =
      (packedTimeseries.Unpack
        ⟨"m", true, [⟨⟨[1], [1], 0, 1, true⟩⟩, ⟨⟨[1], [1], 0, 1, false⟩⟩]⟩
        ⟨0, 10⟩ true 1).sbPuts +
        (([⟨none, [⟨[1], [⟨1, 0⟩], 0⟩], 1, 0⟩] :
          List unpackUnitOut).map (fun u => u.sbs.length)).sum :=
  claim_C3_unpack_error_path
    ⟨"m", true, [⟨⟨[1], [1], 0, 1, true⟩⟩, ⟨⟨[1], [1], 0, 1, false⟩⟩]⟩
    ⟨0, 10⟩ true 1 ("cannot unpack block: cannot unmarshal block")
    [⟨none, [⟨[1], [⟨1, 0⟩], 0⟩], 1, 0⟩] []
    ⟨some ("cannot unpack block: cannot unmarshal block"), [], 1, 1⟩
    (by decide) (by decide) (by decide) (by decide)

/-! ### The series worker pool (timeseriesWorker, Results.RunParallel) -/

/-- What one iteration of timeseriesWorker does with one task: what it
sends on the task's doneCh, whether it invoked the user callback, whether
it ran Unpack, the rowsProcessed it records, and whether it applied the
memory-reset policy to its thread-local Result. The observable inputs the
iteration reads from its environment — whether the query deadline is
exceeded at task start, cap(rs.Values) (an allocator property), and the
fasttime clock — are passed in. -/
structure workerTaskOut where
  sent : Option String
  callbackInvoked : Bool
  unpacked : Bool
  rowsProcessed : Nat
  resetHappened : Bool
  lastResetTimeAfter : Nat
deriving Repr

def timeseriesWorkerStep (tr : TimeRange) (fetchData : Bool) (batchSize : Nat)
    (deadlineExceeded : Bool) (pts : packedTimeseries)
    (capValues currentTime lastResetTime : Nat) : workerTaskOut :=
  if deadlineExceeded then
    -- timeout sent on doneCh; continue: no unpack, no callback, no reset check
    ⟨some ("timeout exceeded during query execution"), false, false, 0, false, lastResetTime⟩
  else
    match (pts.Unpack tr fetchData batchSize).res with
    | .error e =>
      -- error sent on doneCh; continue: no callback, no reset check
      ⟨some ("error during time series unpacking: " ++ e), false, true, 0, false, lastResetTime⟩
    | .ok (ts, vs) =>
      let callback := decide (0 < ts.length ∨ fetchData = false)
      let reset := decide (1024 * 1024 < capValues ∧ 4 * vs.length < capValues ∧
        10 < currentTime - lastResetTime)
      ⟨none, callback, true, vs.length, reset,
        if reset then currentTime else lastResetTime⟩

/-- Claim C5: the user callback is invoked exactly when the deadline was
not exceeded at task start, the unpack succeeded and the result has
non-empty timestamps or fetch_data is false; on an exceeded deadline the
worker signals a timeout without unpacking or invoking the callback. -/
theorem claim_C5_worker_callback (tr : TimeRange) (fetchData : Bool) (batchSize : Nat)
    (dl : Bool) (pts : packedTimeseries) (capValues currentTime lastResetTime : Nat) :
    ((timeseriesWorkerStep tr fetchData batchSize dl pts capValues currentTime
        lastResetTime).callbackInvoked = true ↔
      (dl = false ∧ ∃ ts vs, (pts.Unpack tr fetchData batchSize).res = .ok (ts, vs) ∧
        (0 < ts.length ∨ fetchData = false))) ∧
    (dl = true →
      (timeseriesWorkerStep tr fetchData batchSize dl pts capValues currentTime
        lastResetTime).sent = some ("timeout exceeded during query execution") ∧
      (timeseriesWorkerStep tr fetchData batchSize dl pts capValues currentTime
        lastResetTime).unpacked = false ∧
      (timeseriesWorkerStep tr fetchData batchSize dl pts capValues currentTime
        lastResetTime).callbackInvoked = false) := by
  cases dl with
  | true =>
    refine ⟨?_, fun _ => ⟨rfl, rfl, rfl⟩⟩
    simp [timeseriesWorkerStep]
  | false =>
    refine ⟨?_, fun h => by simp at h⟩
    cases hres : (pts.Unpack tr fetchData batchSize).res with
    | error e =>
      simp only [timeseriesWorkerStep, if_neg (by simp : ¬ (false = true)), hres]
      simp
    | ok p =>
      obtain ⟨ts, vs⟩ := p
      simp only [timeseriesWorkerStep, if_neg (by simp : ¬ (false = true)), hres]
      simp only [decide_eq_true_eq]
      constructor
      · intro h
        exact ⟨trivial, ts, vs, rfl, h⟩
      · rintro ⟨-, ts', vs', heq, hcond⟩
        cases heq
        exact hcond

/-- Claim C9 (amended): after a task that completed without timeout or
unpack error, the worker resets its thread-local Result exactly when
cap(rs.Values) exceeds 1 MiB, four times len(rs.Values) is below that
capacity, and strictly more than 10 (integer) seconds have passed since
the last reset; a task that hit the deadline or an unpack error skips the
reset check entirely. -/
theorem claim_C9_reset_policy (tr : TimeRange) (fetchData : Bool) (batchSize : Nat)
    (dl : Bool) (pts : packedTimeseries) (capValues currentTime lastResetTime : Nat) :
    (timeseriesWorkerStep tr fetchData batchSize dl pts capValues currentTime
        lastResetTime).resetHappened = true ↔
      (dl = false ∧ ∃ ts vs, (pts.Unpack tr fetchData batchSize).res = .ok (ts, vs) ∧
        1024 * 1024 < capValues ∧ 4 * vs.length < capValues ∧
        10 < currentTime - lastResetTime) := by
  cases dl with
  | true => simp [timeseriesWorkerStep]
  | false =>
    cases hres : (pts.Unpack tr fetchData batchSize).res with
    | error e =>
      simp only [timeseriesWorkerStep, if_neg (by simp : ¬ (false = true)), hres]
      simp
    | ok p =>
      obtain ⟨ts, vs⟩ := p
      simp only [timeseriesWorkerStep, if_neg (by simp : ¬ (false = true)), hres]
      simp only [decide_eq_true_eq]
      constructor
      · intro h
        exact ⟨trivial, ts, vs, rfl, h⟩
      · rintro ⟨-, ts', vs', heq, hcond⟩
        cases heq
        exact hcond

/-- Counterexample to claim C9 as stated: two tasks on which the stated
condition "cap > 1 MiB, 4*len < cap, at least 10 seconds since the last
reset" holds, yet no reset happens. First, a successful task at exactly
10 elapsed seconds: the source requires strictly more than 10. Second, a
task whose unpack errors with ample capacity and 100 elapsed seconds: the
source skips the reset check on the error path. -/
theorem claim_C9_counterexample :
    ((timeseriesWorkerStep ⟨0, 10⟩ true 1 false
        ⟨"m", true, [⟨⟨[1], [1], 0, 1, true⟩⟩]⟩ 1048577 10 0).resetHappened = false ∧
      1024 * 1024 < 1048577 ∧
      4 * (timeseriesWorkerStep ⟨0, 10⟩ true 1 false
        ⟨"m", true, [⟨⟨[1], [1], 0, 1, true⟩⟩]⟩ 1048577 10 0).rowsProcessed < 1048577 ∧
      (10 : Nat) ≤ 10 - 0) ∧
    ((timeseriesWorkerStep ⟨0, 10⟩ true 1 false
        ⟨"m", true, [⟨⟨[1], [1], 0, 1, false⟩⟩]⟩ 2097152 100 0).resetHappened = false ∧
      1024 * 1024 < 2097152 ∧
      4 * (timeseriesWorkerStep ⟨0, 10⟩ true 1 false
        ⟨"m", true, [⟨⟨[1], [1], 0, 1, false⟩⟩]⟩ 2097152 100 0).rowsProcessed < 2097152 ∧
      (10 : Nat) ≤ 100 - 0) := by
  decide

/-- Results: the query handle returned by ProcessSearchQuery. `sr` tells
whether the handle still owns a pooled storage search. The deadline is
consulted through the per-task oracle passed to RunParallel. -/
structure Results where
  tr : TimeRange
  fetchData : Bool
  packedTimeseries : List packedTimeseries
  sr : Bool
deriving Repr

structure runParallelOut where
  err : Option String
  rssAfter : Results
  srReleased : Bool
deriving Repr

/-- What one task contributes to its doneCh. The worker's thread-local
capacity and clock do not affect what it sends, so they are fixed here. -/
def taskSent (tr : TimeRange) (fetchData : Bool) (batchSize : Nat)
    (dlExceeded : Bool) (pts : packedTimeseries) : Option String :=
  (timeseriesWorkerStep tr fetchData batchSize dlExceeded pts 0 0 0).sent

/-- The await loop of RunParallel: `if err := <-tsw.doneCh; err != nil &&
firstErr == nil { firstErr = err }` over the tasks in series order. -/
def firstErrFold : Option String → List (Option String) → Option String
  | acc, [] => acc
  | acc, e :: es =>
    firstErrFold (match acc, e with | none, some m => some m | _, _ => acc) es

/-- Results.RunParallel: feed every packed series to the worker pool (the
per-task deadline oracle dl gives what rss.deadline.Exceeded() returns at
task i's start), await completions in series order keeping the first
error, empty the handle, and release the storage search via the deferred
mustClose. The handle is unusable afterwards. -/
def Results.RunParallel (rss : Results) (batchSize : Nat) (dl : Nat → Bool) :
    runParallelOut :=
  let sents := rss.packedTimeseries.enum.map
    (fun p => taskSent rss.tr rss.fetchData batchSize (dl p.1) p.2)
  { err := firstErrFold none sents,
    rssAfter := { rss with packedTimeseries := [], sr := false },
    srReleased := true }

theorem firstErrFold_some (m : String) :
    ∀ l : List (Option String), firstErrFold (some m) l = some m := by
  intro l
  induction l with
  | nil => rfl
  | cons e es ih =>
    simp only [firstErrFold]
    exact ih

theorem firstErrFold_eq_findSome :
    ∀ l : List (Option String), firstErrFold none l = l.findSome? id := by
  intro l
  induction l with
  | nil => rfl
  | cons e es ih =>
    cases e with
    | none =>
      simp only [firstErrFold, List.findSome? ]
      exact ih
    | some m =>
      simp only [firstErrFold, List.findSome? ]
      exact firstErrFold_some m es

/-- Claim C4: RunParallel awaits completions in series order and returns
the first non-nil error in that order (nil when no series errs, including
the zero-series case); the StorageSearch is released on every return path
and the Results handle is unusable (emptied, search relinquished)
afterwards. -/
theorem claim_C4_runParallel (rss : Results) (batchSize : Nat) (dl : Nat → Bool) :
    (rss.RunParallel batchSize dl).err =
      (rss.packedTimeseries.enum.map
        (fun p => taskSent rss.tr rss.fetchData batchSize (dl p.1) p.2)).findSome? id ∧
    (rss.packedTimeseries = [] → (rss.RunParallel batchSize dl).err = none) ∧
    (rss.RunParallel batchSize dl).srReleased = true ∧
    (rss.RunParallel batchSize dl).rssAfter.sr = false ∧
    (rss.RunParallel batchSize dl).rssAfter.packedTimeseries = [] := by
  refine ⟨firstErrFold_eq_findSome _, ?_, rfl, rfl, rfl⟩
  intro hnil
  show firstErrFold none _ = none
  rw [hnil]
  rfl

/-! ### The query driver (ProcessSearchQuery) -/

/-- One (metric_name, block_ref) pair yielded by sr.NextMetricBlock(). -/
structure metricBlockItem where
  name : String
  br : BlockRef
deriving Repr, DecidableEq

/-- The body of the drain loop: append the BlockRef to the metric's entry
in the map m (a Go map: total function with nil-slice default); on the
first occurrence (the appended slice has length 1) also push the name onto
orderedMetricNames. Both branches store the slice back. -/
def drainStep (m : String → List BlockRef) (order : List String)
    (mb : metricBlockItem) : (String → List BlockRef) × List String :=
  let brs := m mb.name ++ [mb.br]
  let m2 := fun s => if s = mb.name then brs else m s
  if 1 < brs.length then (m2, order) else (m2, order ++ [mb.name])

/-- The drain loop `for sr.NextMetricBlock()`: blocksRead counts blocks,
the deadline is consulted once per block before processing it. -/
def psqDrain (dl : Nat → Bool) : Nat → List metricBlockItem →
    ((String → List BlockRef) × List String) →
    Except String ((String → List BlockRef) × List String)
  | _, [], st => .ok st
  | k, mb :: rest, st =>
    if dl (k + 1) then
      .error ("timeout exceeded while fetching data block from storage")
    else psqDrain dl (k + 1) rest (drainStep st.1 st.2 mb)

/-- The per-metric group a drained prefix induces: all BlockRefs of that
metric name, in stream order. -/
def groupOf (p : List metricBlockItem) (name : String) : List BlockRef :=
  (p.filter (fun mb => mb.name = name)).map (fun mb => mb.br)

/-- First-occurrence order of a list of names. -/
def firstOccAux (acc : List String) : List String → List String
  | [] => acc
  | n :: ns => if n ∈ acc then firstOccAux acc ns else firstOccAux (acc ++ [n]) ns

def firstOcc (ns : List String) : List String :=
  firstOccAux [] ns

theorem mem_firstOccAux :
    ∀ (ns : List String) (acc : List String) (x : String),
      x ∈ firstOccAux acc ns ↔ x ∈ acc ∨ x ∈ ns := by
  intro ns
  induction ns with
  | nil =>
    intro acc x
    simp [firstOccAux]
  | cons n ns ih =>
    intro acc x
    by_cases hn : n ∈ acc
    · rw [firstOccAux, if_pos hn, ih]
      constructor
      · rintro (h | h)
        · exact Or.inl h
        · exact Or.inr (List.mem_cons_of_mem n h)
      · rintro (h | h)
        · exact Or.inl h
        · rcases List.mem_cons.mp h with rfl | h2
          · exact Or.inl hn
          · exact Or.inr h2
    · rw [firstOccAux, if_neg hn, ih]
      simp [List.mem_append, List.mem_cons]
      tauto
theorem firstOccAux_snoc :
    ∀ (ns : List String) (acc : List String) (n : String),
      firstOccAux acc (ns ++ [n]) =
        if n ∈ acc ∨ n ∈ ns then firstOccAux acc ns
        else firstOccAux acc ns ++ [n] := by
  intro ns
  induction ns with
  | nil =>
    intro acc n
    simp only [List.nil_append, firstOccAux]
    by_cases hn : n ∈ acc
    · rw [if_pos hn, if_pos (Or.inl hn)]
    · rw [if_neg hn, if_neg (by simp [hn])]
  | cons m ns ih =>
    intro acc n
    by_cases hm : m ∈ acc
    · rw [List.cons_append, firstOccAux, if_pos hm, ih, firstOccAux, if_pos hm]
      by_cases hcond : n ∈ acc ∨ n ∈ ns
      · rw [if_pos hcond, if_pos ?side]
        case side =>
          rcases hcond with h | h
          · exact Or.inl h
          · exact Or.inr (List.mem_cons_of_mem m h)
      · rw [if_neg hcond, if_neg ?side]
        case side =>
          rintro (h | h)
          · exact hcond (Or.inl h)
          · rcases List.mem_cons.mp h with rfl | h2
            · exact hcond (Or.inl hm)
            · exact hcond (Or.inr h2)
    · rw [List.cons_append, firstOccAux, if_neg hm, ih, firstOccAux, if_neg hm]
      by_cases hcond : n ∈ acc ++ [m] ∨ n ∈ ns
      · rw [if_pos hcond, if_pos ?side]
        case side =>
          rcases hcond with h | h
          · rcases List.mem_append.mp h with h2 | h2
            · exact Or.inl h2
            · rcases List.mem_singleton.mp h2 with rfl
              exact Or.inr (List.mem_cons_self _ _)
          · exact Or.inr (List.mem_cons_of_mem m h)
      · rw [if_neg hcond, if_neg ?side]
        case side =>
          rintro (h | h)
          · exact hcond (Or.inl (List.mem_append.mpr (Or.inl h)))
          · rcases List.mem_cons.mp h with rfl | h2
            · exact hcond (Or.inl (List.mem_append.mpr (Or.inr (List.mem_singleton.mpr rfl))))
            · exact hcond (Or.inr h2)

theorem groupOf_append_one (p : List metricBlockItem) (mb : metricBlockItem) (s : String) :
    groupOf (p ++ [mb]) s =
      groupOf p s ++ (if mb.name = s then [mb.br] else []) := by
  by_cases h : mb.name = s
  · simp [groupOf, List.filter_append, h]
  · simp [groupOf, List.filter_append, h]

theorem groupOf_ne_nil_iff (p : List metricBlockItem) (name : String) :
    ¬ groupOf p name = [] ↔ name ∈ p.map (fun mb => mb.name) := by
  simp only [groupOf]
  constructor
  · intro h
    rcases hf : (p.filter (fun mb => mb.name = name)) with _ | ⟨mb, rest⟩
    · rw [hf] at h
      simp at h
    · have hmb : mb ∈ p.filter (fun mb => mb.name = name) := by
        rw [hf]
        exact List.mem_cons_self mb rest
      have := List.mem_filter.mp hmb
      refine List.mem_map.mpr ⟨mb, this.1, ?_⟩
      simpa using this.2
  · intro h hnil
    obtain ⟨mb, hmem, hname⟩ := List.mem_map.mp h
    have : mb ∈ p.filter (fun mb => mb.name = name) :=
      List.mem_filter.mpr ⟨hmem, by simp [hname]⟩
    rw [List.map_eq_nil_iff] at hnil
    rw [hnil] at this
    simp at this

/-- The drain loop without deadline interruptions computes, for every
metric name, its BlockRefs in stream order, and the first-occurrence order
of metric names. -/
theorem psqDrain_ok_spec (dl : Nat → Bool) (hdl : ∀ i, dl i = false) :
    ∀ (restStream : List metricBlockItem) (k : Nat) (p : List metricBlockItem)
      (m : String → List BlockRef) (order : List String),
      (∀ s, m s = groupOf p s) →
      order = firstOcc (p.map (fun mb => mb.name)) →
      ∃ m2 order2,
        psqDrain dl k restStream (m, order) = .ok (m2, order2) ∧
        (∀ s, m2 s = groupOf (p ++ restStream) s) ∧
        order2 = firstOcc ((p ++ restStream).map (fun mb => mb.name)) := by
  intro restStream
  induction restStream with
  | nil =>
    intro k p m order hm horder
    exact ⟨m, order, rfl, by simpa using hm, by simpa using horder⟩
  | cons mb rest ih =>
    intro k p m order hm horder
    have hstep : psqDrain dl k (mb :: rest) (m, order) =
        psqDrain dl (k + 1) rest (drainStep m order mb) := by
      simp only [psqDrain, hdl (k + 1)]
      rfl
    have hm2 : ∀ s, (drainStep m order mb).1 s = groupOf (p ++ [mb]) s := by
      intro s
      simp only [drainStep]
      by_cases hs : s = mb.name
      · subst hs
        by_cases hlen : 1 < (m mb.name ++ [mb.br]).length
        · rw [if_pos hlen]
          simp [hm mb.name, groupOf_append_one]
        · rw [if_neg hlen]
          simp [hm mb.name, groupOf_append_one]
      · have hs2 : ¬ mb.name = s := fun h => hs h.symm
        by_cases hlen : 1 < (m mb.name ++ [mb.br]).length
        · rw [if_pos hlen]
          simp [hs, hm s, groupOf_append_one, hs2]
        · rw [if_neg hlen]
          simp [hs, hm s, groupOf_append_one, hs2]
    have horder2 : (drainStep m order mb).2 =
        firstOcc ((p ++ [mb]).map (fun mb => mb.name)) := by
      simp only [drainStep]
      have hseen : 1 < (m mb.name ++ [mb.br]).length ↔
          mb.name ∈ p.map (fun mb => mb.name) := by
        rw [hm mb.name]
        rw [← groupOf_ne_nil_iff]
        cases hg : groupOf p mb.name with
        | nil => simp [hg]
        | cons b bs => simp [hg]
      have hsnoc : firstOcc ((p ++ [mb]).map (fun mb => mb.name)) =
          if mb.name ∈ p.map (fun mb => mb.name) then
            firstOcc (p.map (fun mb => mb.name))
          else firstOcc (p.map (fun mb => mb.name)) ++ [mb.name] := by
        rw [List.map_append]
        simp only [List.map_cons, List.map_nil]
        rw [firstOcc, firstOccAux_snoc]
        rw [firstOcc]
        congr 1
        simp
      by_cases hmem : mb.name ∈ p.map (fun mb => mb.name)
      · rw [if_pos (hseen.mpr hmem), hsnoc, if_pos hmem, horder]
      · rw [if_neg (fun h => hmem (hseen.mp h)), hsnoc, if_neg hmem, horder]
    have hds : drainStep m order mb = ((drainStep m order mb).1, (drainStep m order mb).2) :=
      rfl
    obtain ⟨m2, order2, hrun, hg2, ho2⟩ :=
      ih (k + 1) (p ++ [mb]) (drainStep m order mb).1 (drainStep m order mb).2 hm2 horder2
    refine ⟨m2, order2, ?_, ?_, ?_⟩
    · rw [hstep, hds, hrun]
    · intro s
      rw [hg2 s, List.append_assoc]
      rfl
    · rw [ho2, List.append_assoc]
      rfl

/-- The inputs ProcessSearchQuery consumes from its environment: the
deadline at entry, the outcome of the boundary setupTfss parse, the
outcome of the boundary CheckTimeRange, the stream yielded by the storage
search, the deadline observed at each drained block, and what sr.Error()
reports at the end (none, the storage deadline error, or another search
error). -/
structure PSQInput where
  tr : TimeRange
  deadlineAtEntry : Bool
  tfssOk : Bool
  timeRangeOk : Bool
  stream : List metricBlockItem
  drainDeadline : Nat → Bool
  srErrIsDeadline : Option Bool

/-- The outcome of ProcessSearchQuery plus the effects it performed:
whether setupTfss ran, whether CheckTimeRange ran, whether a pooled
StorageSearch was acquired, and whether putStorageSearch was called on it
inside this function (the source never does: the search is either
transferred to the Results on success or simply not released on error). -/
structure PSQOutput where
  res : Except String Results
  tfssParsed : Bool
  timeRangeChecked : Bool
  srAcquired : Bool
  srReleased : Bool

/-- ProcessSearchQuery: deadline gate, filter parse, time-range check,
search acquisition and init, drain grouped by metric name in first-seen
order, error check, and materialization of the Results handle that owns
the search. The boundary MetricName.Unmarshal outcome for a name is the
oracle nameOk. -/
def ProcessSearchQuery (inp : PSQInput) (fetchData : Bool)
    (nameOk : String → Bool) : PSQOutput :=
  if inp.deadlineAtEntry then
    { res := .error ("timeout exceeded before starting the query processing"),
      tfssParsed := false, timeRangeChecked := false,
      srAcquired := false, srReleased := false }
  else if inp.tfssOk = false then
    { res := .error ("cannot parse tag filter"),
      tfssParsed := true, timeRangeChecked := false,
      srAcquired := false, srReleased := false }
  else if inp.timeRangeOk = false then
    { res := .error ("error in CheckTimeRange"),
      tfssParsed := true, timeRangeChecked := true,
      srAcquired := false, srReleased := false }
  else
    match psqDrain inp.drainDeadline 0 inp.stream (fun _ => [], []) with
    | .error e =>
      { res := .error e,
        tfssParsed := true, timeRangeChecked := true,
        srAcquired := true, srReleased := false }
    | .ok (m, order) =>
      match inp.srErrIsDeadline with
      | some true =>
        { res := .error ("timeout exceeded during the query"),
          tfssParsed := true, timeRangeChecked := true,
          srAcquired := true, srReleased := false }
      | some false =>
        { res := .error ("search error after reading data blocks"),
          tfssParsed := true, timeRangeChecked := true,
          srAcquired := true, srReleased := false }
      | none =>
        { res := .ok
            { tr := inp.tr, fetchData := fetchData,
              packedTimeseries := order.map
                (fun name => packedTimeseries.mk name (nameOk name) (m name)),
              sr := true },
          tfssParsed := true, timeRangeChecked := true,
          srAcquired := true, srReleased := false }

/-- Claim C7: with the deadline already exceeded at entry,
ProcessSearchQuery returns a timeout error before any storage access: no
filter parse, no time-range check, no StorageSearch acquisition. -/
theorem claim_C7_deadline_at_entry (inp : PSQInput) (fetchData : Bool)
    (nameOk : String → Bool) (h : inp.deadlineAtEntry = true) :
    (ProcessSearchQuery inp fetchData nameOk).res =
      .error ("timeout exceeded before starting the query processing") ∧
    (ProcessSearchQuery inp fetchData nameOk).tfssParsed = false ∧
    (ProcessSearchQuery inp fetchData nameOk).timeRangeChecked = false ∧
    (ProcessSearchQuery inp fetchData nameOk).srAcquired = false := by
  simp [ProcessSearchQuery, h]

/-- Witness for claim C7. -/
theorem claim_C7_witness :
    (ProcessSearchQuery ⟨⟨0, 10⟩, true, true, true, [], fun _ => false, none⟩ true
      (fun _ => true)).res =
      .error ("timeout exceeded before starting the query processing") ∧
    (ProcessSearchQuery ⟨⟨0, 10⟩, true, true, true, [], fun _ => false, none⟩ true
      (fun _ => true)).tfssParsed = false ∧
    (ProcessSearchQuery ⟨⟨0, 10⟩, true, true, true, [], fun _ => false, none⟩ true
      (fun _ => true)).timeRangeChecked = false ∧
    (ProcessSearchQuery ⟨⟨0, 10⟩, true, true, true, [], fun _ => false, none⟩ true
      (fun _ => true)).srAcquired = false :=
  claim_C7_deadline_at_entry ⟨⟨0, 10⟩, true, true, true, [], fun _ => false, none⟩
    true (fun _ => true) rfl

/-- Claim C6: on a successful drain, ProcessSearchQuery returns exactly
one packedTimeseries per distinct metric name, ordered by the first
occurrence of each name in the stream, each holding all of that metric's
BlockRefs in stream order. -/
theorem claim_C6_grouping (inp : PSQInput) (fetchData : Bool) (nameOk : String → Bool)
    (h1 : inp.deadlineAtEntry = false) (h2 : inp.tfssOk = true)
    (h3 : inp.timeRangeOk = true) (h4 : ∀ i, inp.drainDeadline i = false)
    (h5 : inp.srErrIsDeadline = none) :
    ∃ rss, (ProcessSearchQuery inp fetchData nameOk).res = .ok rss ∧
      rss.packedTimeseries.map (fun pts => pts.metricName) =
        firstOcc (inp.stream.map (fun mb => mb.name)) ∧
      (∀ pts ∈ rss.packedTimeseries,
        pts.brs = (inp.stream.filter (fun mb => mb.name = pts.metricName)).map
          (fun mb => mb.br)) := by
  obtain ⟨m2, order2, hrun, hg, ho⟩ :=
    psqDrain_ok_spec inp.drainDeadline h4 inp.stream 0 [] (fun _ => []) []
      (fun s => rfl) rfl
  have hpsq : ProcessSearchQuery inp fetchData nameOk =
      { res := .ok
          { tr := inp.tr, fetchData := fetchData,
            packedTimeseries := order2.map
              (fun name => packedTimeseries.mk name (nameOk name) (m2 name)),
            sr := true },
        tfssParsed := true, timeRangeChecked := true,
        srAcquired := true, srReleased := false } := by
    simp only [ProcessSearchQuery, h1, Bool.false_eq_true, if_false, h2, h3]
    simp only [if_neg (by simp : ¬ (true = false))]
    rw [hrun, h5]
  rw [hpsq]
  refine ⟨_, rfl, ?_, ?_⟩
  · rw [List.map_map, ho]
    have hcomp : ((fun pts : packedTimeseries => pts.metricName) ∘
        (fun name => packedTimeseries.mk name (nameOk name) (m2 name))) =
        fun name => name := funext (fun name => rfl)
    rw [hcomp]
    simp
  · intro pts hpts
    obtain ⟨name, hname, hmk⟩ := List.mem_map.mp hpts
    rw [← hmk]
    show m2 name = _
    rw [hg name]
    rfl

/-- The concrete three-block stream used by the C6 witness. -/
def streamC6 : List metricBlockItem :=
  [⟨"a", ⟨⟨[1], [1], 0, 1, true⟩⟩⟩, ⟨"b", ⟨⟨[2], [2], 0, 1, true⟩⟩⟩,
    ⟨"a", ⟨⟨[3], [3], 0, 1, true⟩⟩⟩]

def inpC6 : PSQInput := ⟨⟨0, 10⟩, false, true, true, streamC6, fun _ => false, none⟩

/-- Witness for claim C6: a three-block stream over two metric names. -/
theorem claim_C6_witness :
    ∃ rss, (ProcessSearchQuery inpC6 true (fun _ => true)).res = .ok rss ∧
      rss.packedTimeseries.map (fun pts => pts.metricName) =
        firstOcc (inpC6.stream.map (fun mb => mb.name)) ∧
      (∀ pts ∈ rss.packedTimeseries,
        pts.brs = (inpC6.stream.filter (fun mb => mb.name = pts.metricName)).map
          (fun mb => mb.br)) :=
  claim_C6_grouping inpC6 true (fun _ => true) rfl rfl rfl (fun _ => rfl) rfl


/-- Claim C10: once ProcessSearchQuery has acquired and initialized the
StorageSearch, no path inside the function closes it or returns it to its
pool: an error during the drain or from sr.Error() is returned with the
search left unreleased, and only the success path transfers the search
into the returned Results. -/
theorem claim_C10_sr_ownership (inp : PSQInput) (fetchData : Bool)
    (nameOk : String → Bool) (h1 : inp.deadlineAtEntry = false)
    (h2 : inp.tfssOk = true) (h3 : inp.timeRangeOk = true) :
    (ProcessSearchQuery inp fetchData nameOk).srAcquired = true ∧
    (ProcessSearchQuery inp fetchData nameOk).srReleased = false ∧
    (∀ rss, (ProcessSearchQuery inp fetchData nameOk).res = .ok rss → rss.sr = true) ∧
    ((ProcessSearchQuery inp fetchData nameOk).res.isOk = true ↔
      ((psqDrain inp.drainDeadline 0 inp.stream (fun _ => [], [])).isOk = true ∧
        inp.srErrIsDeadline = none)) := by
  have hred : ∀ (o : PSQOutput),
      (match psqDrain inp.drainDeadline 0 inp.stream (fun _ => [], []) with
        | .error e => o
        | .ok _ => o) = o := by
    intro o
    cases psqDrain inp.drainDeadline 0 inp.stream (fun _ => [], []) <;> rfl
  simp only [ProcessSearchQuery, h1, Bool.false_eq_true, if_false, h2, h3]
  simp only [if_neg (by simp : ¬ (true = false))]
  cases hd : psqDrain inp.drainDeadline 0 inp.stream (fun _ => [], []) with
  | error e =>
    refine ⟨rfl, rfl, ?_, ?_⟩
    · intro rss h
      simp at h
    · simp [hd, Except.isOk, Except.toBool]
  | ok st =>
    obtain ⟨m2, order2⟩ := st
    cases hse : inp.srErrIsDeadline with
    | none =>
      refine ⟨rfl, rfl, ?_, ?_⟩
      · intro rss h
        simp only [Except.ok.injEq] at h
        rw [← h]
      · simp [hd, Except.isOk, Except.toBool]
    | some b =>
      cases b with
      | false =>
        refine ⟨rfl, rfl, ?_, ?_⟩
        · intro rss h
          simp at h
        · simp [hd, hse, Except.isOk, Except.toBool]
      | true =>
        refine ⟨rfl, rfl, ?_, ?_⟩
        · intro rss h
          simp at h
        · simp [hd, hse, Except.isOk, Except.toBool]

/-- The C10 witness input: a drain interrupted by the deadline at the
first block. -/
def inpC10 : PSQInput :=
  ⟨⟨0, 10⟩, false, true, true, [⟨"a", ⟨⟨[1], [1], 0, 1, true⟩⟩⟩],
    fun _ => true, none⟩

/-- Witness for claim C10: the search is acquired and never released. -/
theorem claim_C10_witness :
    (ProcessSearchQuery inpC10 true (fun _ => true)).srAcquired = true ∧
    (ProcessSearchQuery inpC10 true (fun _ => true)).srReleased = false ∧
    (∀ rss, (ProcessSearchQuery inpC10 true (fun _ => true)).res = .ok rss →
      rss.sr = true) ∧
    ((ProcessSearchQuery inpC10 true (fun _ => true)).res.isOk = true ↔
      ((psqDrain inpC10.drainDeadline 0 inpC10.stream (fun _ => [], [])).isOk = true ∧
        inpC10.srErrIsDeadline = none)) :=
  claim_C10_sr_ownership inpC10 true (fun _ => true) rfl rfl rfl

/-! ### Label discovery (GetLabels) -/

/-- sort.Strings (Go standard library), modelled by its contract: an
ascending sort of the list of strings. -/
def sortStrings (l : List String) : List String :=
  l.mergeSort

/-- GetLabels: deadline gate, boundary SearchTagKeys outcome, substitution
of "" by "__name__", then the sort (in that order). -/
def GetLabels (deadlineExceeded : Bool)
    (storageLabels : Except String (List String)) : Except String (List String) :=
  if deadlineExceeded then
    .error ("timeout exceeded before starting the query processing")
  else
    match storageLabels with
    | .error e => .error ("error during labels search: " ++ e)
    | .ok labels =>
      let labels2 := labels.map (fun s => if s = "" then "__name__" else s)
      .ok (sortStrings labels2)

/-- Claim C8: on a successful call, every empty-string label of the
storage result is replaced by "__name__" before sorting, and the returned
list is an ascending sort of the substituted labels (in particular it
contains no empty string). -/
theorem claim_C8_getLabels (labels : List String) :
    ∃ out, GetLabels false (.ok labels) = .ok out ∧
      out.Perm (labels.map (fun s => if s = "" then "__name__" else s)) ∧
      out.Sorted (· ≤ ·) ∧
      (∀ s ∈ out, s ≠ "") := by
  refine ⟨sortStrings (labels.map (fun s => if s = "" then "__name__" else s)), rfl, ?_, ?_, ?_⟩
  · exact List.mergeSort_perm _ _
  · exact List.sorted_mergeSort' _
  · intro s hs
    have hmem : s ∈ labels.map (fun s => if s = "" then "__name__" else s) :=
      (List.mergeSort_perm _ _).subset hs
    obtain ⟨t, ht, hts⟩ := List.mem_map.mp hmem
    by_cases h0 : t = ""
    · rw [h0] at hts
      simp at hts
      rw [← hts]
      simp
    · rw [if_neg h0] at hts
      rw [← hts]
      exact h0
